import Mathlib

/- Verification of potfit's tabulated-potential reader (potential_input_f3.c:
   read_pot_table3 / init_calc_table3) and of the castep2force converter.
   Machine doubles are modelled as exact rationals; the flat C arrays are
   modelled as Lean lists, with C int offsets as integers. -/

namespace Potfit

/-- Function roles given by the compile-time sections of read_pot_table3
    (pair potentials, EAM transfer rho, EAM embedding F, the TBEAM s-band
    variants, ADP dipole u and quadrupole w, MEAM second pair f and the
    MEAM angular part). -/
inductive FnKind
  | pair
  | rho
  | embed
  | tbeam_rho
  | tbeam_embed
  | adp_u
  | adp_w
  | meam_f
  | meam_angle
  deriving DecidableEq

/-- Per-function data as read_pot_table3 sees it: the section role of the
    function in the compiled model, the clamp marker (true exactly for the
    function at index paircol + 2*ntypes of the MEAM build, see the
    `j != 0 || i != g_calc.paircol + 2 * g_param.ntypes` test), the header
    fields begin/end/nvals, and the g_pot.invar_pot / g_pot.gradient flags
    for this function. -/
structure FuncDesc where
  kind : FnKind
  clampFirst : Bool
  begin_ : ℚ
  end_ : ℚ
  nvals : ℕ
  invar : Bool
  grad : ℕ
  deriving DecidableEq

/-! ### Info block (header) arithmetic of read_pot_table3

The loop computes, per function i:
  step[i]    = (end[i] - begin[i]) / (nvals[i] - 1)
  invstep[i] = 1 / step[i]
  first[0]   = 2,  first[i] = last[i-1] + 3
  last[i]    = first[i] + nvals[i] - 1
  len        = first[i] + nvals[i]        (overwritten each iteration)
-/

/-- first[i] of the info-block loop, as a function of the nvals column. -/
def firstIdx (ns : List ℕ) : ℕ → ℤ
  | 0 => 2
  | i + 1 => (firstIdx ns i + (ns.getD i 0 : ℤ) - 1) + 3

/-- last[i] of the info-block loop. -/
def lastIdx (ns : List ℕ) (i : ℕ) : ℤ :=
  firstIdx ns i + (ns.getD i 0 : ℤ) - 1

/-- pt->len after the info-block loop finishes (its final assignment is in
    iteration ns.length - 1). -/
def lenAfter (ns : List ℕ) : ℤ :=
  firstIdx ns (ns.length - 1) + (ns.getD (ns.length - 1) 0 : ℤ)

/-- pt->step[i] for a function, from its header line. -/
def stepOf (f : FuncDesc) : ℚ :=
  (f.end_ - f.begin_) / ((f.nvals : ℚ) - 1)

/-- pt->invstep[i] for a function. -/
def invstepOf (f : FuncDesc) : ℚ :=
  1 / stepOf f

/-! ### The free-parameter index scan of read_pot_table3

Each function occupies 2 + nvals slots of the flat buffer: two gradient
slots, then the sample slots.  The input loop walks all slots with a running
buffer offset l and a running index count k, executing `pt->idx[k++] = l++`
exactly on the free slots.  A slot's freedom is a function of the section
role, the invar_pot / gradient flags and the sample position alone. -/

/-- The j-loop guard of `pt->idx[k++] = l++` for sample slot j of a function
    with nvals sample points (the `!invar_pot[i]` factor is handled in
    `funcMask`).  Sections EAM embedding F, TBEAM s-band F and the MEAM
    angular part store every sample; the MEAM second-pair section tests
    `j < nvals[i]-1 && (j != 0 || i != paircol + 2*ntypes)`; every other
    section tests `j < nvals[i]-1`. -/
def sampleKeep (k : FnKind) (clampFirst : Bool) (j n : ℕ) : Bool :=
  match k with
  | .embed => true
  | .tbeam_embed => true
  | .meam_angle => true
  | .meam_f => decide (j < n - 1) && (decide (j ≠ 0) || !clampFirst)
  | _ => decide (j < n - 1)

/-- Free/fixed marks for the 2 + nvals slots of one function, in buffer
    order: the gradient slot guards are `!invar_pot[i] && (gradient[i] >> 1)`
    and `!invar_pot[i] && (gradient[i] % 2)`. -/
def funcMask (f : FuncDesc) : List Bool :=
  (!f.invar && decide (f.grad >>> 1 ≠ 0)) ::
    (!f.invar && decide (f.grad % 2 ≠ 0)) ::
    (List.range f.nvals).map (fun j => !f.invar && sampleKeep f.kind f.clampFirst j f.nvals)

/-- Free/fixed marks for the whole flat buffer, function by function. -/
def freeMask (fns : List FuncDesc) : List Bool :=
  (fns.map funcMask).flatten

/-- The running state of the input loop: index count k, buffer offset l, and
    the contents of pt->idx written so far. -/
structure ScanState where
  k : ℕ
  l : ℕ
  idx : List ℕ
  deriving DecidableEq

/-- One slot of the input loop: `pt->idx[k++] = l++` on a free slot, a bare
    `l++` otherwise. -/
def slotStep (s : ScanState) (b : Bool) : ScanState :=
  if b then ⟨s.k + 1, s.l + 1, s.idx ++ [s.l]⟩ else ⟨s.k, s.l + 1, s.idx⟩

/-- The input loop of read_pot_table3 over all slots. -/
def buildScan (fns : List FuncDesc) : ScanState :=
  (freeMask fns).foldl slotStep ⟨0, 0, []⟩

/-- pt->idx after read_pot_table3. -/
def idxOf (fns : List FuncDesc) : List ℕ :=
  (buildScan fns).idx

/-- pt->idxlen after read_pot_table3 (the final value of k). -/
def idxlenOf (fns : List FuncDesc) : ℕ :=
  (buildScan fns).k

/-- Positions (from offset l0 on) of the true entries of a mark list. -/
def truePos (l0 : ℕ) : List Bool → List ℕ
  | [] => []
  | b :: bs => if b then l0 :: truePos (l0 + 1) bs else truePos (l0 + 1) bs

/-- Number of true marks. -/
def countTrue (bs : List Bool) : ℕ :=
  (bs.filter id).length

/-- Total number of buffer slots (pt->len as a natural number). -/
def totalLen (fns : List FuncDesc) : ℕ :=
  (fns.map (fun f => f.nvals + 2)).sum

/-- Buffer offset of the first (gradient) slot of function i. -/
def basePos (fns : List FuncDesc) (i : ℕ) : ℕ :=
  ((fns.take i).map (fun f => f.nvals + 2)).sum

/-- pt->xcoord: the input loop stores begin[i] + j * step[i] at the buffer
    offset of sample slot j of function i and never writes the gradient
    slots (modelled as none). -/
def funcXcoord (f : FuncDesc) : List (Option ℚ) :=
  none :: none ::
    (List.range f.nvals).map (fun j : ℕ => some (f.begin_ + (j : ℚ) * stepOf f))

/-- The xcoord array over the whole buffer. -/
def xcoordOf (fns : List FuncDesc) : List (Option ℚ) :=
  (fns.map funcXcoord).flatten

/-- Shape of a function that is fixed at table-layout time (role, clamp
    marker and sample count), with the begin/end data and the invar/gradient
    flags left free. -/
def shapeEq (f g : FuncDesc) : Prop :=
  f.kind = g.kind ∧ f.clampFirst = g.clampFirst ∧ f.nvals = g.nvals

/-- Shape plus the invar_pot/gradient flags (everything the index scan can
    read); begin/end may still differ. -/
def flagShapeEq (f g : FuncDesc) : Prop :=
  shapeEq f g ∧ f.invar = g.invar ∧ f.grad = g.grad

/-- Two tables with the same layout (same roles, clamp markers and sample
    counts), flags free. -/
def SameLayout (fns gns : List FuncDesc) : Prop :=
  List.Forall₂ shapeEq fns gns

/-- Two tables the index scan cannot distinguish. -/
def SameFlags (fns gns : List FuncDesc) : Prop :=
  List.Forall₂ flagShapeEq fns gns

/-- A buffer offset that stays fixed for every configuration of the
    invar_pot and gradient flags over the given layout. -/
def alwaysFixedAt (fns : List FuncDesc) (o : ℕ) : Prop :=
  ∀ gns, SameLayout fns gns → (freeMask gns).getD o false = false

/-- A function spec as it appears in the potential file, before the compiled
    model assigns it a section role. -/
structure FuncSpec where
  begin_ : ℚ
  end_ : ℚ
  nvals : ℕ
  invar : Bool
  grad : ℕ
  deriving DecidableEq

/-- Attach a section role and clamp marker to a spec. -/
def withKind (k : FnKind) (c : Bool) (s : FuncSpec) : FuncDesc :=
  ⟨k, c, s.begin_, s.end_, s.nvals, s.invar, s.grad⟩

/-- Function layout of the plain EAM build of read_pot_table3: paircol pair
    potentials, ntypes transfer functions rho, ntypes embedding functions F,
    in that order. -/
def eamLayout (ps rs es : List FuncSpec) : List FuncDesc :=
  ps.map (withKind .pair false) ++ rs.map (withKind .rho false) ++
    es.map (withKind .embed false)

/-- Function layout of the MEAM build: pair, rho, F, then the second-pair
    functions f (the first of which, at index paircol + 2*ntypes, carries
    the clamp marker), then the angular part. -/
def meamLayout (ps rs es fs gs : List FuncSpec) : List FuncDesc :=
  ps.map (withKind .pair false) ++ rs.map (withKind .rho false) ++
    es.map (withKind .embed false) ++
    (match fs with
     | [] => []
     | f :: fr => withKind .meam_f true f :: fr.map (withKind .meam_f false)) ++
    gs.map (withKind .meam_angle false)

/-! ### The input-consumption skeleton of read_pot_table3

The file is modelled as the stream of whitespace-separated numeric fields
that fscanf sees.  Reading stops with error(1, ...) — modelled as an
Except.error carrying the diagnostic data — as soon as a fscanf returns
fewer conversions than requested; the embedding-domain check of the
non-RESCALE build runs at the top of an embedding function's iteration,
before that function's gradient and value reads. -/

/-- One parsed info-block line: begin, end and the sample count (the %d
    conversion of the third field). -/
structure PotHeader where
  begin_ : ℚ
  end_ : ℚ
  nvals : ℕ
  deriving DecidableEq

/-- The data of the diagnostics issued by read_pot_table3 via error(1, ...):
    premature end of file in the info block (file, function), at a gradient
    line (file, function), at a value line (file, function, line), or the
    embedding-domain abort (which prints the offending domain). -/
inductive ReadErr
  | infoBlock (file : String) (i : ℕ)
  | gradLine (file : String) (i : ℕ)
  | valueLine (file : String) (i j : ℕ)
  | embedDomain (b e : ℚ)
  deriving DecidableEq

/-- The file named by a diagnostic. -/
def errFile : ReadErr → Option String
  | .infoBlock f _ => some f
  | .gradLine f _ => some f
  | .valueLine f _ _ => some f
  | .embedDomain _ _ => none

/-- The function index named by a diagnostic. -/
def errFnIdx : ReadErr → Option ℕ
  | .infoBlock _ i => some i
  | .gradLine _ i => some i
  | .valueLine _ i _ => some i
  | .embedDomain _ _ => none

/-- The info-block loop: for each of n remaining functions (the current one
    having index i), fscanf three fields or fail naming the file and i. -/
def readHeaderAux (file : String) : ℕ → ℕ → List ℚ → Except ReadErr (List PotHeader × List ℚ)
  | _, 0, toks => .ok ([], toks)
  | i, n + 1, b :: e :: nv :: rest =>
    (match readHeaderAux file (i + 1) n rest with
     | .ok (hs, r) => .ok (⟨b, e, Int.toNat ⌊nv⌋⟩ :: hs, r)
     | .error er => .error er)
  | i, _ + 1, _ => .error (.infoBlock file i)

/-- The `read values` loop of one function: m values left to read, the next
    being line j of function i; fscanf one field each or fail naming the
    file, i and j. -/
def readValsAux (file : String) (i : ℕ) : ℕ → ℕ → List ℚ → Except ReadErr (List ℚ × List ℚ)
  | _, 0, toks => .ok ([], toks)
  | j, _ + 1, [] => .error (.valueLine file i j)
  | j, m + 1, v :: rest =>
    (match readValsAux file i (j + 1) m rest with
     | .ok (vs, r) => .ok (v :: vs, r)
     | .error er => .error er)

/-- The gradient-slot defaults written when the file carries no gradient
    line, per section of read_pot_table3. -/
def defaultGrad : FnKind → ℚ × ℚ
  | .embed => (1e30, 1e30)
  | .tbeam_embed => (1e30, 1e30)
  | .adp_w => (1e30, 1e30)
  | .meam_angle => (0, 0)
  | _ => (1e30, 0)

/-- The gradient pair and values of one function as stored in pt->table. -/
structure FuncVals where
  grad : ℚ × ℚ
  vals : List ℚ
  deriving DecidableEq

/-- The gradient line (when have_gradient, two fields or a fatal gradient
    diagnostic) or the default gradient slots, followed by the nvals sample
    values of one function. -/
def readGradVals (file : String) (i : ℕ) (k : FnKind) (nvals : ℕ) :
    Bool → List ℚ → Except ReadErr (FuncVals × List ℚ)
  | true, g1 :: g2 :: rest =>
    (match readValsAux file i 0 nvals rest with
     | .ok (vs, r) => .ok (⟨(g1, g2), vs⟩, r)
     | .error er => .error er)
  | true, _ => .error (.gradLine file i)
  | false, rest =>
    (match readValsAux file i 0 nvals rest with
     | .ok (vs, r) => .ok (⟨defaultGrad k, vs⟩, r)
     | .error er => .error er)

/-- One iteration of a section loop of read_pot_table3 for function i: the
    non-RESCALE embedding-domain check first (it aborts before anything of
    this function is read), then the gradient line (when have_gradient) or
    the default gradients, then the nvals sample values. -/
def readOneFunc (file : String) (rescale hg : Bool) (i : ℕ) (k : FnKind)
    (h : PotHeader) (toks : List ℚ) : Except ReadErr (FuncVals × List ℚ) :=
  if k = FnKind.embed ∧ rescale = false ∧ (1 < h.begin_ ∨ h.end_ < 1) then
    .error (.embedDomain h.begin_ h.end_)
  else
    readGradVals file i k h.nvals hg toks

/-- All section loops of read_pot_table3, walking the functions in table
    order with their global index i. -/
def readFuncsAux (file : String) (rescale hg : Bool) :
    ℕ → List (FnKind × PotHeader) → List ℚ → Except ReadErr (List FuncVals × List ℚ)
  | _, [], toks => .ok ([], toks)
  | i, kh :: fhs, toks =>
    match readOneFunc file rescale hg i kh.1 kh.2 toks with
    | .ok (fv, r1) =>
      (match readFuncsAux file rescale hg (i + 1) fhs r1 with
       | .ok (fvs, r) => .ok (fv :: fvs, r)
       | .error er => .error er)
    | .error er => .error er

/-- read_pot_table3 over the token stream: the info block for all functions,
    then the per-function gradient and value reads. -/
def read_pot_table3 (file : String) (rescale hg : Bool) (kinds : List FnKind)
    (toks : List ℚ) : Except ReadErr (List PotHeader × List FuncVals × List ℚ) :=
  match readHeaderAux file 0 kinds.length toks with
  | .ok (hs, rest) =>
    (match readFuncsAux file rescale hg 0 (kinds.zip hs) rest with
     | .ok (fvs, r) => .ok (hs, fvs, r)
     | .error er => .error er)
  | .error er => .error er

/-- pt->step as computed from an info-block line (code line
    `pt->step[i] = (pt->end[i] - pt->begin[i]) / (nvals[i] - 1)`). -/
def headerStep (h : PotHeader) : ℚ :=
  (h.end_ - h.begin_) / ((h.nvals : ℚ) - 1)

/-- Tokens consumed by the section loops: per function, two for the gradient
    line when have_gradient, plus one per declared sample. -/
def neededToks (hg : Bool) (fhs : List (FnKind × PotHeader)) : ℕ :=
  (fhs.map (fun p => (if hg then 2 else 0) + p.2.nvals)).sum

/-- No function of the list trips the non-RESCALE embedding-domain abort. -/
def noEmbedViol (rescale : Bool) (fhs : List (FnKind × PotHeader)) : Prop :=
  ∀ p ∈ fhs, ¬(p.1 = FnKind.embed ∧ rescale = false ∧ (1 < p.2.begin_ ∨ p.2.end_ < 1))

/-- An example potential file name for concrete runs. -/
def startpotName : String := "startpot"

/-! ### The castep2force converter: energy post-processing (read_configuration) -/

/-- Membership test of the chemical-potentials dictionary. -/
def lookupPot (pots : List (String × ℚ)) (el : String) : Option ℚ :=
  (pots.find? (fun p => p.1 == el)).map (fun p => p.2)

/-- The diagnostic of the fatal() call for an element with no chemical
    potential (quoting of the element name elided). -/
def missingPotMsg (el : String) : String :=
  "Element " ++ el ++ " in MD file, but no chemical potential given"

/-- The per-element loop at the end of read_configuration: subtract
    potential times atom count for each element of the body (in insertion
    order), counting atoms, or die on the first element with no potential.
    The body is abstracted to the element names with their atom counts. -/
def subtractPots (pots : List (String × ℚ)) :
    List (String × ℕ) → ℚ → ℕ → Except String (ℚ × ℕ)
  | [], e, n => .ok (e, n)
  | (el, cnt) :: rest, e, n =>
    match lookupPot pots el with
    | none => .error (missingPotMsg el)
    | some p => subtractPots pots rest (e - p * (cnt : ℚ)) (n + cnt)

/-- The energy post-processing of read_configuration: nothing happens when
    no total energy was read; otherwise the chemical potentials are
    subtracted (fatally diagnosing a missing one) and the result divided by
    the atom count. -/
def read_configuration_energy (energy : Option ℚ) (body : List (String × ℕ))
    (pots : List (String × ℚ)) : Except String (Option ℚ) :=
  match energy with
  | none => .ok none
  | some e0 =>
    (match subtractPots pots body e0 0 with
     | .error msg => .error msg
     | .ok (e, n) => .ok (some (e / (n : ℚ))))

/-- An example element symbol. -/
def elXx : String := "Xx"

/-! ### init_calc_table3: aliasing of the two global tables -/

/-- pot_table_t: the scalar members are values; the pointer members are
    modelled as identifiers of backing buffers in a store, so a reference
    copy (an alias) is distinguishable from a copy of the contents. -/
structure pot_table_t where
  len : ℤ
  idxlen : ℤ
  ncols : ℤ
  begin_ : ℕ
  end_ : ℕ
  step : ℕ
  invstep : ℕ
  first : ℕ
  last : ℕ
  xcoord : ℕ
  table : ℕ
  d2tab : ℕ
  idx : ℕ
  deriving DecidableEq

/-- The part of g_pot touched by init_calc_table3. -/
structure g_pot_t where
  opt_pot : pot_table_t
  calc_pot : pot_table_t
  deriving DecidableEq

/-- init_calc_table3: member-by-member assignment from opt_pot to calc_pot —
    the scalars len, idxlen, ncols by value, and begin, end, step, invstep,
    first, last, xcoord, table, d2tab, idx as references (pointer copies). -/
def init_calc_table3 (g : g_pot_t) : g_pot_t :=
  ⟨g.opt_pot,
    ⟨g.opt_pot.len, g.opt_pot.idxlen, g.opt_pot.ncols, g.opt_pot.begin_,
      g.opt_pot.end_, g.opt_pot.step, g.opt_pot.invstep, g.opt_pot.first,
      g.opt_pot.last, g.opt_pot.xcoord, g.opt_pot.table, g.opt_pot.d2tab,
      g.opt_pot.idx⟩⟩

/-- A store of double buffers addressed by reference. -/
def Store : Type := ℕ → List ℚ

/-- Write value v at position j of the buffer referenced by r. -/
def writeBuf (st : Store) (r j : ℕ) (v : ℚ) : Store :=
  fun r2 => if r2 = r then (st r).set j v else st r2

/-- Read the buffer referenced by r. -/
def readBuf (st : Store) (r : ℕ) : List ℚ :=
  st r

/-! ### castep2force numeric field formatting

Python's format spec 23.16E: scientific notation with 16 digits after the
decimal point, a sign-and-two-digit (minimum) exponent field, right-aligned
to a minimum width of 23.  The double value is modelled as an exact
rational, whose decimal mantissa is rounded half-to-even. -/

/-- Little-endian base-10 digits, with explicit fuel (any fuel at least n
    gives the digits of n). -/
def digitsRevFuel : ℕ → ℕ → List ℕ
  | 0, _ => []
  | f + 1, n => if n = 0 then [] else n % 10 :: digitsRevFuel f (n / 10)

/-- Decimal digit characters of n, most significant first. -/
def natChars (n : ℕ) : List Char :=
  if n = 0 then ['0'] else ((digitsRevFuel n n).reverse.map Nat.digitChar)

/-- Decimal exponent search for 1 ≤ a: the number of times a can be divided
    by 10 before dropping below 10 (by fuel). -/
def expUp : ℕ → ℚ → ℕ
  | 0, _ => 0
  | f + 1, a => if a < 10 then 0 else expUp f (a / 10) + 1

/-- Decimal exponent search for 0 < a < 1: the least m with 1 ≤ a * 10^m
    (by fuel). -/
def expDown : ℕ → ℚ → ℕ
  | 0, _ => 0
  | f + 1, a => if 1 ≤ a then 0 else expDown f (a * 10) + 1

/-- The decimal exponent of a positive rational:
    10 ^ exp10 a ≤ a < 10 ^ (exp10 a + 1). -/
def exp10 (a : ℚ) : ℤ :=
  if 1 ≤ a then (expUp a.num.natAbs a : ℤ) else -(expDown a.den a : ℤ)

/-- Round half to even, as Python does when printing a float mantissa. -/
def roundHalfEven (q : ℚ) : ℤ :=
  if q - ⌊q⌋ < 1 / 2 then ⌊q⌋
  else if 1 / 2 < q - ⌊q⌋ then ⌊q⌋ + 1
  else if ⌊q⌋ % 2 = 0 then ⌊q⌋ else ⌊q⌋ + 1

/-- Mantissa (an integer of prec+1 digits) and exponent of a nonzero value:
    |x| * 10 ^ (prec - exp10 |x|) rounded half-to-even, bumping the exponent
    when the rounding overflows to 10 ^ (prec + 1). -/
def mantExp (prec : ℕ) (x : ℚ) : ℕ × ℤ :=
  if (roundHalfEven (|x| * (10 : ℚ) ^ ((prec : ℤ) - exp10 |x|))).toNat = 10 ^ (prec + 1) then
    (10 ^ prec, exp10 |x| + 1)
  else
    ((roundHalfEven (|x| * (10 : ℚ) ^ ((prec : ℤ) - exp10 |x|))).toNat, exp10 |x|)

/-- The exponent field: a sign and at least two digits. -/
def expChars (e : ℤ) : List Char :=
  (if e < 0 then '-' else '+') ::
    (if e.natAbs < 10 then '0' :: natChars e.natAbs else natChars e.natAbs)

/-- Scientific notation with prec digits after the decimal point. -/
def fmtE (prec : ℕ) (x : ℚ) : List Char :=
  if x = 0 then
    '0' :: '.' :: (List.replicate prec '0' ++ 'E' :: '+' :: '0' :: ['0'])
  else
    (if x < 0 then ['-'] else []) ++
      ((natChars (mantExp prec x).1).take 1 ++
        '.' :: (natChars (mantExp prec x).1).drop 1) ++
      'E' :: expChars (mantExp prec x).2

/-- Right-align in a field of minimum width w. -/
def padLeft (w : ℕ) (s : List Char) : List Char :=
  List.replicate (w - s.length) ' ' ++ s

/-- One numeric field of the converter: Python format spec 23.16E. -/
def fmt2316 (x : ℚ) : List Char :=
  padLeft 23 (fmtE 16 x)

/-- The number of digit characters between the decimal point and the
    exponent marker of a formatted field. -/
def fracCount (s : List Char) : ℕ :=
  (((s.dropWhile (fun c => c != '.')).drop 1).takeWhile (fun c => c != 'E')).length

/-- A cell box vector of the converter. -/
structure Box where
  x : ℚ
  y : ℚ
  z : ℚ

/-- The three numeric fields Box.to_string emits. -/
def Box.numFields (b : Box) : List (List Char) :=
  [fmt2316 b.x, fmt2316 b.y, fmt2316 b.z]

/-- Box.to_string: the three 23.16E fields joined by blanks. -/
def Box.to_string (b : Box) : List Char :=
  List.intercalate [' '] (Box.numFields b)

/-- An atom of the converter: type tag, position and force components. -/
structure Atom where
  type : ℕ
  x : ℚ
  y : ℚ
  z : ℚ
  f_x : ℚ
  f_y : ℚ
  f_z : ℚ

/-- The six numeric fields Atom.to_string emits. -/
def Atom.numFields (a : Atom) : List (List Char) :=
  [fmt2316 a.x, fmt2316 a.y, fmt2316 a.z, fmt2316 a.f_x, fmt2316 a.f_y, fmt2316 a.f_z]

/-- Atom.to_string: the type tag, then the six 23.16E fields, blank-joined. -/
def Atom.to_string (a : Atom) : List Char :=
  natChars a.type ++ ' ' :: List.intercalate [' '] (Atom.numFields a)

/-- The cohesive-energy field of the configuration header. -/
def energyField (e : ℚ) : List Char :=
  fmt2316 e

/-- The six stress fields of the configuration header, in emission order:
    xx yy zz xy yz xz. -/
def stressFields (xx yy zz xy yz xz : ℚ) : List (List Char) :=
  [fmt2316 xx, fmt2316 yy, fmt2316 zz, fmt2316 xy, fmt2316 yz, fmt2316 xz]

/-- The field the converter emits for the value one. -/
def sampleField : String := " 1.0000000000000000E+00"

end Potfit


namespace Potfit

/-! ### Lemmas about the info block -/

theorem firstIdx_eq_sum (ns : List ℕ) :
    ∀ i, i ≤ ns.length →
      firstIdx ns i = 2 + ((ns.take i).map (fun n : ℕ => (n : ℤ) + 2)).sum := by
  intro i
  induction i with
  | zero => intro _; simp [firstIdx]
  | succ i ih =>
    intro hi
    have hi' : i < ns.length := Nat.lt_of_succ_le hi
    have htake : ns.take (i + 1) = ns.take i ++ [ns[i]] := by
      rw [List.take_succ, List.getElem?_eq_getElem hi']
      rfl
    have hgd : ns.getD i 0 = ns[i] := by
      rw [List.getD_eq_getElem?_getD, List.getElem?_eq_getElem hi']
      rfl
    rw [firstIdx, ih (Nat.le_of_lt hi'), htake, hgd, List.map_append,
      List.sum_append]
    simp only [List.map_cons, List.map_nil, List.sum_cons, List.sum_nil]
    ring

/-- C1: after the info block of read_pot_table3 for N functions, the offsets
satisfy first[0] = 2, first[i] = last[i-1] + 3, last[i] = first[i] +
nvals[i] - 1 (hence first[i] < last[i] whenever nvals[i] >= 2), and pt->len
ends up equal to the sum over all functions of (nvals[i] + 2). -/
theorem read_pot_table3_header_invariants (ns : List ℕ) :
    firstIdx ns 0 = 2 ∧
    (∀ i, firstIdx ns (i + 1) = lastIdx ns i + 3) ∧
    (∀ i, lastIdx ns i = firstIdx ns i + (ns.getD i 0 : ℤ) - 1) ∧
    (∀ i, i < ns.length → 2 ≤ ns.getD i 0 → firstIdx ns i < lastIdx ns i) ∧
    (ns ≠ [] → lenAfter ns = (ns.map (fun n : ℕ => (n : ℤ) + 2)).sum) := by
  refine ⟨rfl, fun i => rfl, fun i => rfl, ?_, ?_⟩
  · intro i _ h2
    have : (2 : ℤ) ≤ (ns.getD i 0 : ℤ) := by exact_mod_cast h2
    unfold lastIdx
    omega
  · intro hne
    have hlen : 0 < ns.length := List.length_pos.mpr hne
    have hlast : ns.length - 1 < ns.length := by omega
    have h := firstIdx_eq_sum ns (ns.length - 1) (by omega)
    have htake : ns.take (ns.length - 1 + 1) = ns := by
      have h1 : ns.length - 1 + 1 = ns.length := by omega
      rw [h1, List.take_length]
    have hsucc : ns.take (ns.length - 1 + 1) =
        ns.take (ns.length - 1) ++ [ns[ns.length - 1]] := by
      rw [List.take_succ, List.getElem?_eq_getElem hlast]
      rfl
    have hgd : ns.getD (ns.length - 1) 0 = ns[ns.length - 1] := by
      rw [List.getD_eq_getElem?_getD, List.getElem?_eq_getElem hlast]
      rfl
    unfold lenAfter
    rw [h, hgd]
    have hsum : (ns.map (fun n : ℕ => (n : ℤ) + 2)).sum =
        ((ns.take (ns.length - 1)).map (fun n : ℕ => (n : ℤ) + 2)).sum +
          ((ns[ns.length - 1] : ℤ) + 2) := by
      conv_lhs => rw [← htake, hsucc]
      rw [List.map_append, List.sum_append]
      simp only [List.map_cons, List.map_nil, List.sum_cons, List.sum_nil]
      ring
    rw [hsum]
    ring

/-! ### Lemmas about the index scan -/

theorem freeMask_cons (f : FuncDesc) (fns : List FuncDesc) :
    freeMask (f :: fns) = funcMask f ++ freeMask fns := by
  simp [freeMask]

theorem freeMask_append (fns gns : List FuncDesc) :
    freeMask (fns ++ gns) = freeMask fns ++ freeMask gns := by
  simp [freeMask]

theorem funcMask_length (f : FuncDesc) : (funcMask f).length = f.nvals + 2 := by
  simp [funcMask]

theorem freeMask_length (fns : List FuncDesc) :
    (freeMask fns).length = totalLen fns := by
  induction fns with
  | nil => rfl
  | cons f fns ih =>
    rw [freeMask_cons, List.length_append, funcMask_length, ih]
    show f.nvals + 2 + totalLen fns = totalLen (f :: fns)
    rw [totalLen, totalLen, List.map_cons, List.sum_cons]

theorem countTrue_cons (b : Bool) (bs : List Bool) :
    countTrue (b :: bs) = (if b then 1 else 0) + countTrue bs := by
  by_cases hb : b = true <;> simp [countTrue, hb, List.filter] <;> omega

theorem truePos_length (bs : List Bool) :
    ∀ l0, (truePos l0 bs).length = countTrue bs := by
  induction bs with
  | nil => intro l0; simp [truePos, countTrue]
  | cons b bs ih =>
    intro l0
    rw [truePos, countTrue_cons]
    by_cases hb : b = true
    · rw [if_pos hb, if_pos hb, List.length_cons, ih]
      omega
    · rw [if_neg hb, if_neg hb, ih]
      omega

theorem foldl_slotStep (bs : List Bool) :
    ∀ s : ScanState,
      bs.foldl slotStep s = ⟨s.k + countTrue bs, s.l + bs.length, s.idx ++ truePos s.l bs⟩ := by
  induction bs with
  | nil =>
    intro s
    simp only [List.foldl_nil, countTrue, List.filter_nil, List.length_nil,
      truePos, List.append_nil, Nat.add_zero]
  | cons b bs ih =>
    intro s
    rw [List.foldl_cons]
    by_cases hb : b = true
    · subst hb
      rw [show slotStep s true = ⟨s.k + 1, s.l + 1, s.idx ++ [s.l]⟩ from rfl, ih,
        countTrue_cons, truePos, if_pos rfl, if_pos rfl]
      simp only [ScanState.mk.injEq]
      refine ⟨by omega, by simp only [List.length_cons]; omega, by simp⟩
    · have hb2 : b = false := by simpa using hb
      subst hb2
      rw [show slotStep s false = ⟨s.k, s.l + 1, s.idx⟩ from rfl, ih,
        countTrue_cons, truePos, if_neg Bool.false_ne_true, if_neg Bool.false_ne_true]
      simp only [ScanState.mk.injEq]
      refine ⟨by omega, by simp only [List.length_cons]; omega, trivial⟩

theorem buildScan_eq (fns : List FuncDesc) :
    buildScan fns =
      ⟨countTrue (freeMask fns), (freeMask fns).length, truePos 0 (freeMask fns)⟩ := by
  unfold buildScan
  rw [foldl_slotStep]
  simp

theorem idxOf_eq (fns : List FuncDesc) : idxOf fns = truePos 0 (freeMask fns) := by
  rw [idxOf, buildScan_eq]

theorem idxlenOf_eq (fns : List FuncDesc) : idxlenOf fns = countTrue (freeMask fns) := by
  rw [idxlenOf, buildScan_eq]

theorem mem_truePos (bs : List Bool) :
    ∀ l0 o : ℕ,
      o ∈ truePos l0 bs ↔ ∃ j, j < bs.length ∧ bs.getD j false = true ∧ o = l0 + j := by
  induction bs with
  | nil => intro l0 o; simp [truePos]
  | cons b bs ih =>
    intro l0 o
    constructor
    · intro ho
      by_cases hb : b = true
      · rw [truePos, if_pos hb] at ho
        rcases List.mem_cons.mp ho with h | h
        · exact ⟨0, by simp, by simpa using hb, by omega⟩
        · rcases (ih (l0 + 1) o).mp h with ⟨j, hj, hg, ho'⟩
          exact ⟨j + 1, by simpa using hj, by simpa using hg, by omega⟩
      · rw [truePos, if_neg hb] at ho
        rcases (ih (l0 + 1) o).mp ho with ⟨j, hj, hg, ho'⟩
        exact ⟨j + 1, by simpa using hj, by simpa using hg, by omega⟩
    · rintro ⟨j, hj, hg, rfl⟩
      cases j with
      | zero =>
        rw [truePos, if_pos (by simpa using hg)]
        simp
      | succ j =>
        have hmem : l0 + 1 + j ∈ truePos (l0 + 1) bs :=
          (ih (l0 + 1) (l0 + 1 + j)).mpr ⟨j, by simpa using hj, by simpa using hg, rfl⟩
        have harith : l0 + (j + 1) = l0 + 1 + j := by omega
        rw [harith, truePos]
        by_cases hb : b = true
        · rw [if_pos hb]
          exact List.mem_cons_of_mem _ hmem
        · rw [if_neg hb]
          exact hmem

theorem truePos_lb (bs : List Bool) (l0 o : ℕ) (h : o ∈ truePos l0 bs) : l0 ≤ o := by
  rcases (mem_truePos bs l0 o).mp h with ⟨j, _, _, rfl⟩
  omega

theorem truePos_chain (bs : List Bool) : ∀ l0, (truePos l0 bs).Chain' (· < ·) := by
  induction bs with
  | nil => intro l0; simp [truePos]
  | cons b bs ih =>
    intro l0
    rw [truePos]
    by_cases hb : b = true
    · rw [if_pos hb]
      refine List.chain'_cons'.mpr ⟨?_, ih (l0 + 1)⟩
      intro y hy
      have := truePos_lb bs (l0 + 1) y (List.mem_of_mem_head? hy)
      omega
    · rw [if_neg hb]
      exact ih (l0 + 1)

theorem truePos_append (bs cs : List Bool) :
    ∀ l0, truePos l0 (bs ++ cs) = truePos l0 bs ++ truePos (l0 + bs.length) cs := by
  induction bs with
  | nil => intro l0; simp [truePos]
  | cons b bs ih =>
    intro l0
    rw [List.cons_append, truePos, truePos]
    have harith : l0 + 1 + bs.length = l0 + (b :: bs).length := by
      simp
      omega
    by_cases hb : b = true
    · rw [if_pos hb, if_pos hb, ih (l0 + 1), harith, List.cons_append]
    · rw [if_neg hb, if_neg hb, ih (l0 + 1), harith]

theorem truePos_shift (bs : List Bool) :
    ∀ c l0, truePos (c + l0) bs = (truePos l0 bs).map (fun o => c + o) := by
  induction bs with
  | nil => intro c l0; simp [truePos]
  | cons b bs ih =>
    intro c l0
    rw [truePos, truePos]
    by_cases hb : b = true
    · rw [if_pos hb, if_pos hb, List.map_cons]
      have : c + l0 + 1 = c + (l0 + 1) := by omega
      rw [this, ih c (l0 + 1)]
    · rw [if_neg hb, if_neg hb]
      have : c + l0 + 1 = c + (l0 + 1) := by omega
      rw [this, ih c (l0 + 1)]

theorem mem_idxOf (fns : List FuncDesc) (o : ℕ) :
    o ∈ idxOf fns ↔ o < totalLen fns ∧ (freeMask fns).getD o false = true := by
  rw [idxOf_eq, mem_truePos]
  constructor
  · rintro ⟨j, hj, hg, rfl⟩
    rw [freeMask_length] at hj
    refine ⟨by omega, ?_⟩
    rw [Nat.zero_add]
    exact hg
  · rintro ⟨ho, hg⟩
    exact ⟨o, by rwa [freeMask_length], hg, by omega⟩

theorem flatten_map_getD {α : Type} (g : FuncDesc → List α)
    (hg : ∀ f, (g f).length = f.nvals + 2) (d : α) :
    ∀ (fns : List FuncDesc) (i : ℕ) (hi : i < fns.length) (off : ℕ),
      off < fns[i].nvals + 2 →
      ((fns.map g).flatten).getD (basePos fns i + off) d = (g fns[i]).getD off d := by
  intro fns
  induction fns with
  | nil => intro i hi; simp at hi
  | cons f fns ih =>
    intro i hi off hoff
    cases i with
    | zero =>
      have hbase : basePos (f :: fns) 0 = 0 := by simp [basePos]
      rw [hbase, List.map_cons, List.flatten_cons, Nat.zero_add]
      have : off < (g f).length := by
        rw [hg f]
        simpa using hoff
      rw [List.getD_append _ _ _ _ this]
      rfl
    | succ i =>
      have hi' : i < fns.length := by simpa using hi
      have hbase : basePos (f :: fns) (i + 1) = (f.nvals + 2) + basePos fns i := by
        simp [basePos, List.take_succ_cons]
      rw [hbase, List.map_cons, List.flatten_cons]
      have hlen : (g f).length ≤ f.nvals + 2 + basePos fns i + off := by
        rw [hg f]
        omega
      rw [List.getD_append_right _ _ _ _ hlen]
      have harith : f.nvals + 2 + basePos fns i + off - (g f).length =
          basePos fns i + off := by
        rw [hg f]
        omega
      rw [harith]
      exact ih i hi' off (by simpa using hoff)

theorem basePos_off_lt_totalLen :
    ∀ (fns : List FuncDesc) (i : ℕ) (hi : i < fns.length),
      ∀ off, off < fns[i].nvals + 2 → basePos fns i + off < totalLen fns := by
  intro fns
  induction fns with
  | nil => intro i hi; simp at hi
  | cons f fns ih =>
    intro i hi off hoff
    cases i with
    | zero =>
      have hbase : basePos (f :: fns) 0 = 0 := by simp [basePos]
      rw [hbase, totalLen, List.map_cons, List.sum_cons]
      have : off < f.nvals + 2 := by simpa using hoff
      have hnn : 0 ≤ (fns.map (fun f => f.nvals + 2)).sum := Nat.zero_le _
      rw [totalLen] at *
      omega
    | succ i =>
      have hi' : i < fns.length := by simpa using hi
      have hbase : basePos (f :: fns) (i + 1) = (f.nvals + 2) + basePos fns i := by
        simp [basePos, List.take_succ_cons]
      have := ih i hi' off (by simpa using hoff)
      rw [hbase, totalLen, List.map_cons, List.sum_cons]
      rw [totalLen] at this
      omega

theorem funcMask_congr {f g : FuncDesc} (h : flagShapeEq f g) : funcMask f = funcMask g := by
  obtain ⟨⟨h1, h2, h3⟩, h4, h5⟩ := h
  obtain ⟨k, c, bb, ee, n, iv, gr⟩ := f
  obtain ⟨k', c', bb', ee', n', iv', gr'⟩ := g
  simp only at h1 h2 h3 h4 h5
  subst h1
  subst h2
  subst h3
  subst h4
  subst h5
  rfl

theorem freeMask_eq_of_sameFlags :
    ∀ {fns gns : List FuncDesc}, SameFlags fns gns → freeMask fns = freeMask gns := by
  intro fns gns h
  induction h with
  | nil => rfl
  | cons hfg _ ih =>
    rw [freeMask_cons, freeMask_cons, ih, funcMask_congr hfg]

theorem sameLayout_refl (fns : List FuncDesc) : SameLayout fns fns :=
  List.forall₂_same.mpr (fun _ _ => ⟨rfl, rfl, rfl⟩)

/-- C5: after read_pot_table3, pt->idxlen equals the number of offsets stored
into pt->idx, every stored offset is a valid buffer position (below pt->len)
and not an always-fixed slot, the stored offsets are strictly increasing, and
the scan is deterministic (it depends only on the layout and flag data, not
on the begin/end values) and order-preserving (functions in table order;
appending more functions appends their offsets, shifted past the existing
buffer). -/
theorem read_pot_table3_idx_wellformed (fns : List FuncDesc) :
    idxlenOf fns = (idxOf fns).length ∧
    (idxOf fns).Chain' (· < ·) ∧
    (∀ o ∈ idxOf fns, o < totalLen fns ∧ ¬ alwaysFixedAt fns o) ∧
    (∀ gns, SameFlags fns gns → idxOf gns = idxOf fns ∧ idxlenOf gns = idxlenOf fns) ∧
    (∀ gns, idxOf (fns ++ gns) =
      idxOf fns ++ (idxOf gns).map (fun o => totalLen fns + o)) := by
  refine ⟨?_, ?_, ?_, ?_, ?_⟩
  · rw [idxOf_eq, idxlenOf_eq, truePos_length]
  · rw [idxOf_eq]
    exact truePos_chain _ 0
  · intro o ho
    rcases (mem_idxOf fns o).mp ho with ⟨hlt, hmask⟩
    refine ⟨hlt, fun hfix => ?_⟩
    have := hfix fns (sameLayout_refl fns)
    rw [this] at hmask
    exact Bool.false_ne_true hmask
  · intro gns hsf
    have hmask := freeMask_eq_of_sameFlags hsf
    constructor
    · rw [idxOf_eq, idxOf_eq, hmask]
    · rw [idxlenOf_eq, idxlenOf_eq, hmask]
  · intro gns
    rw [idxOf_eq, freeMask_append, truePos_append, ← idxOf_eq, freeMask_length]
    have : truePos (0 + totalLen fns) (freeMask gns) =
        (truePos 0 (freeMask gns)).map (fun o => totalLen fns + o) := by
      have h1 : (0 : ℕ) + totalLen fns = totalLen fns + 0 := by omega
      rw [h1, truePos_shift]
    rw [this, ← idxOf_eq]

theorem read_pot_table3_idx_wellformed_witness :
    (⟨FnKind.pair, false, 0, 1, 3, false, 3⟩ : FuncDesc) ∈
        ([⟨FnKind.pair, false, 0, 1, 3, false, 3⟩] : List FuncDesc) ∧
      (2 ∈ idxOf [⟨FnKind.pair, false, 0, 1, 3, false, 3⟩] ∧
        2 < totalLen [⟨FnKind.pair, false, 0, 1, 3, false, 3⟩] ∧
        ¬ alwaysFixedAt [⟨FnKind.pair, false, 0, 1, 3, false, 3⟩] 2) := by
  have hmem : 2 ∈ idxOf [⟨FnKind.pair, false, 0, 1, 3, false, 3⟩] := by decide
  have h := (read_pot_table3_idx_wellformed
    [⟨FnKind.pair, false, 0, 1, 3, false, 3⟩]).2.2.1 2 hmem
  exact ⟨by decide, hmem, h.1, h.2⟩


/-! ### Position evaluation of the free mask -/

theorem freeMask_def (fns : List FuncDesc) : freeMask fns = (fns.map funcMask).flatten := rfl

theorem xcoordOf_def (fns : List FuncDesc) : xcoordOf fns = (fns.map funcXcoord).flatten := rfl

theorem funcXcoord_length (f : FuncDesc) : (funcXcoord f).length = f.nvals + 2 := by
  simp [funcXcoord]

theorem getD_map_range {α : Type} (g : ℕ → α) (n j : ℕ) (hj : j < n) (d : α) :
    ((List.range n).map g).getD j d = g j := by
  have hlen : j < ((List.range n).map g).length := by
    simpa using hj
  rw [List.getD_eq_getElem _ _ hlen]
  simp

theorem funcMask_getD_grad1 (f : FuncDesc) :
    (funcMask f).getD 0 false = (!f.invar && decide (f.grad >>> 1 ≠ 0)) := rfl

theorem funcMask_getD_grad2 (f : FuncDesc) :
    (funcMask f).getD 1 false = (!f.invar && decide (f.grad % 2 ≠ 0)) := rfl

theorem funcMask_getD_sample (f : FuncDesc) (j : ℕ) (hj : j < f.nvals) :
    (funcMask f).getD (j + 2) false =
      (!f.invar && sampleKeep f.kind f.clampFirst j f.nvals) := by
  have h2 : (funcMask f).getD (j + 2) false =
      ((List.range f.nvals).map
        (fun j => !f.invar && sampleKeep f.kind f.clampFirst j f.nvals)).getD j false := rfl
  rw [h2, getD_map_range _ _ _ hj]

theorem funcXcoord_getD_sample (f : FuncDesc) (j : ℕ) (hj : j < f.nvals) :
    (funcXcoord f).getD (j + 2) none =
      some (f.begin_ + (j : ℚ) * stepOf f) := by
  have h2 : (funcXcoord f).getD (j + 2) none =
      ((List.range f.nvals).map
        (fun j : ℕ => some (f.begin_ + (j : ℚ) * stepOf f))).getD j none := rfl
  rw [h2, getD_map_range _ _ _ hj]

theorem mem_idxOf_pos (fns : List FuncDesc) (i : ℕ) (hi : i < fns.length)
    (off : ℕ) (hoff : off < fns[i].nvals + 2) :
    (basePos fns i + off ∈ idxOf fns ↔ (funcMask fns[i]).getD off false = true) := by
  rw [mem_idxOf]
  constructor
  · rintro ⟨-, h⟩
    rw [freeMask_def] at h
    rwa [flatten_map_getD funcMask funcMask_length false fns i hi off hoff] at h
  · intro h
    refine ⟨basePos_off_lt_totalLen fns i hi off hoff, ?_⟩
    rw [freeMask_def, flatten_map_getD funcMask funcMask_length false fns i hi off hoff]
    exact h

theorem eamLayout_kinds (ps rs es : List FuncSpec) :
    ∀ f ∈ eamLayout ps rs es,
      (f.kind = .pair ∨ f.kind = .rho ∨ f.kind = .embed) ∧ f.clampFirst = false := by
  intro f hf
  rcases List.mem_append.mp hf with h | h
  · rcases List.mem_append.mp h with h | h
    · rcases List.mem_map.mp h with ⟨s, -, rfl⟩
      exact ⟨Or.inl rfl, rfl⟩
    · rcases List.mem_map.mp h with ⟨s, -, rfl⟩
      exact ⟨Or.inr (Or.inl rfl), rfl⟩
  · rcases List.mem_map.mp h with ⟨s, -, rfl⟩
    exact ⟨Or.inr (Or.inr rfl), rfl⟩

theorem sampleKeep_eam_interior {k : FnKind} (hk : k = .pair ∨ k = .rho ∨ k = .embed)
    {j n : ℕ} (hj : j + 1 < n) : sampleKeep k false j n = true := by
  rcases hk with h | h | h <;> subst h <;> simp [sampleKeep] <;> omega

theorem sampleKeep_eam_last {k : FnKind} (hk : k = .pair ∨ k = .rho ∨ k = .embed)
    {j n : ℕ} (hj : j + 1 = n) : sampleKeep k false j n = decide (k = FnKind.embed) := by
  rcases hk with h | h | h <;> subst h <;> simp [sampleKeep] <;> omega

/-- C2: in the (plain EAM) tabulated build, the free-parameter scan of
read_pot_table3 obeys: an invariant function contributes no offsets; a
gradient slot is free exactly when the function is not invariant and the
corresponding bit of its gradient flag is set (the flag that records whether
the table carries that gradient for this function); every interior sample
point of a non-invariant function is free; and the last sample point is free
exactly for the embedding functions F (for pair and transfer functions it is
always fixed). -/
theorem read_pot_table3_idx_scan_rule (ps rs es : List FuncSpec)
    (i : ℕ) (hi : i < (eamLayout ps rs es).length) :
    ((eamLayout ps rs es)[i].invar = true →
      ∀ off, off < (eamLayout ps rs es)[i].nvals + 2 →
        basePos (eamLayout ps rs es) i + off ∉ idxOf (eamLayout ps rs es)) ∧
    (basePos (eamLayout ps rs es) i ∈ idxOf (eamLayout ps rs es) ↔
      (eamLayout ps rs es)[i].invar = false ∧ (eamLayout ps rs es)[i].grad >>> 1 ≠ 0) ∧
    (basePos (eamLayout ps rs es) i + 1 ∈ idxOf (eamLayout ps rs es) ↔
      (eamLayout ps rs es)[i].invar = false ∧ (eamLayout ps rs es)[i].grad % 2 ≠ 0) ∧
    (∀ j, j + 1 < (eamLayout ps rs es)[i].nvals →
      (basePos (eamLayout ps rs es) i + (j + 2) ∈ idxOf (eamLayout ps rs es) ↔
        (eamLayout ps rs es)[i].invar = false)) ∧
    (∀ j, j + 1 = (eamLayout ps rs es)[i].nvals →
      (basePos (eamLayout ps rs es) i + (j + 2) ∈ idxOf (eamLayout ps rs es) ↔
        ((eamLayout ps rs es)[i].invar = false ∧
          (eamLayout ps rs es)[i].kind = FnKind.embed))) := by
  have hkc := eamLayout_kinds ps rs es _ (List.getElem_mem hi)
  refine ⟨?_, ?_, ?_, ?_, ?_⟩
  · intro hinv off hoff hmem
    have h := (mem_idxOf_pos _ i hi off hoff).mp hmem
    have hfalse : (funcMask (eamLayout ps rs es)[i]).getD off false = false := by
      rcases Nat.lt_or_ge off 2 with h2 | h2
      · interval_cases off
        · rw [funcMask_getD_grad1, hinv]
          rfl
        · rw [funcMask_getD_grad2, hinv]
          rfl
      · obtain ⟨j, rfl⟩ : ∃ j, off = j + 2 := ⟨off - 2, by omega⟩
        rw [funcMask_getD_sample _ j (by omega), hinv]
        rfl
    rw [h] at hfalse
    exact absurd hfalse (by decide)
  · have h0 := mem_idxOf_pos (eamLayout ps rs es) i hi 0 (by omega)
    rw [show basePos (eamLayout ps rs es) i + 0 = basePos (eamLayout ps rs es) i from by omega] at h0
    rw [h0, funcMask_getD_grad1]
    simp [Bool.and_eq_true, Bool.not_eq_true']
  · have h1 := mem_idxOf_pos (eamLayout ps rs es) i hi 1 (by omega)
    rw [h1, funcMask_getD_grad2]
    simp [Bool.and_eq_true, Bool.not_eq_true']
  · intro j hj
    have h := mem_idxOf_pos (eamLayout ps rs es) i hi (j + 2) (by omega)
    rw [h, funcMask_getD_sample _ j (by omega), hkc.2,
      sampleKeep_eam_interior hkc.1 hj]
    simp [Bool.and_eq_true, Bool.not_eq_true']
  · intro j hj
    have h := mem_idxOf_pos (eamLayout ps rs es) i hi (j + 2) (by omega)
    rw [h, funcMask_getD_sample _ j (by omega)]
    rw [hkc.2, sampleKeep_eam_last hkc.1 hj]
    simp [Bool.and_eq_true, Bool.not_eq_true', decide_eq_true_iff]


theorem meamLayout_split (ps rs es gs fr : List FuncSpec) (f0 : FuncSpec) :
    meamLayout ps rs es (f0 :: fr) gs =
      (ps.map (withKind .pair false) ++ rs.map (withKind .rho false) ++
        es.map (withKind .embed false)) ++
      (withKind .meam_f true f0 ::
        (fr.map (withKind .meam_f false) ++ gs.map (withKind .meam_angle false))) := by
  unfold meamLayout
  simp [List.append_assoc]

theorem idx_first_sample_of_clamped (A R : List FuncDesc) (c : FuncDesc)
    (hc : c.kind = FnKind.meam_f) (hcl : c.clampFirst = true) (h1 : 1 ≤ c.nvals) :
    totalLen A + 2 ∉ idxOf (A ++ c :: R) := by
  intro hmem
  rcases (mem_idxOf _ _).mp hmem with ⟨-, hmask⟩
  rw [freeMask_append, freeMask_cons,
    List.getD_append_right _ _ _ _ (by rw [freeMask_length]; omega)] at hmask
  simp only [freeMask_length] at hmask
  have harith : totalLen A + 2 - totalLen A = 2 := by omega
  rw [harith, List.getD_append _ _ _ _ (by rw [funcMask_length]; omega),
    show (2 : ℕ) = 0 + 2 from rfl,
    funcMask_getD_sample c 0 (by omega), hc, hcl] at hmask
  simp [sampleKeep] at hmask

/-- C3: in the MEAM build, the very first sample point of the first
second-pair function f — the designated gauge-fixing slot, clamped to remove
the degeneracy f -> f/b, g -> b^2 g — is never stored in pt->idx, for every
configuration of invariant flags (and all other function data). -/
theorem meam_first_f_point_never_free (ps rs es fr gs : List FuncSpec) (f0 : FuncSpec)
    (h1 : 1 ≤ f0.nvals) :
    basePos (meamLayout ps rs es (f0 :: fr) gs) (ps.length + rs.length + es.length) + 2
      ∉ idxOf (meamLayout ps rs es (f0 :: fr) gs) := by
  have hsplit := meamLayout_split ps rs es gs fr f0
  have hAlen : (ps.map (withKind .pair false) ++ rs.map (withKind .rho false) ++
      es.map (withKind .embed false)).length = ps.length + rs.length + es.length := by
    simp
    omega
  have htake : (ps.map (withKind .pair false) ++ rs.map (withKind .rho false) ++
      es.map (withKind .embed false) ++
      (withKind .meam_f true f0 ::
        (fr.map (withKind .meam_f false) ++
          gs.map (withKind .meam_angle false)))).take
        (ps.length + rs.length + es.length) =
      ps.map (withKind .pair false) ++ rs.map (withKind .rho false) ++
        es.map (withKind .embed false) := by
    rw [← hAlen]
    exact List.take_left _ _
  have hbase : basePos (meamLayout ps rs es (f0 :: fr) gs)
      (ps.length + rs.length + es.length) =
      totalLen (ps.map (withKind .pair false) ++ rs.map (withKind .rho false) ++
        es.map (withKind .embed false)) := by
    rw [hsplit, basePos, htake, totalLen]
  rw [hbase, hsplit]
  exact idx_first_sample_of_clamped _ _ _ rfl rfl h1

theorem meam_first_f_point_never_free_witness :
    1 ≤ (⟨0, 1, 2, false, 0⟩ : FuncSpec).nvals ∧
      basePos (meamLayout [] [] [] [⟨0, 1, 2, false, 0⟩] []) 0 + 2
        ∉ idxOf (meamLayout [] [] [] [⟨0, 1, 2, false, 0⟩] []) :=
  ⟨by decide, meam_first_f_point_never_free [] [] [] [] [] ⟨0, 1, 2, false, 0⟩ (by decide)⟩

/-- C6: for every function of the table, step[i] = (end[i] - begin[i]) /
(nvals[i] - 1) and invstep[i] = 1 / step[i]; the sample slot j of function i
sits at buffer offset first[i] + j (where first[i] equals the function base
offset plus the two gradient slots) and its recorded coordinate is
begin[i] + j * step[i]; the two gradient slots get no coordinate. -/
theorem read_pot_table3_step_xcoord (fns : List FuncDesc) (i : ℕ) (hi : i < fns.length) :
    stepOf fns[i] = (fns[i].end_ - fns[i].begin_) / ((fns[i].nvals : ℚ) - 1) ∧
    invstepOf fns[i] = 1 / stepOf fns[i] ∧
    firstIdx (fns.map (fun f => f.nvals)) i = (basePos fns i : ℤ) + 2 ∧
    (∀ j, j < fns[i].nvals →
      (xcoordOf fns).getD (basePos fns i + (j + 2)) none =
        some (fns[i].begin_ + (j : ℚ) * stepOf fns[i])) ∧
    (xcoordOf fns).getD (basePos fns i) none = none ∧
    (xcoordOf fns).getD (basePos fns i + 1) none = none := by
  refine ⟨rfl, rfl, ?_, ?_, ?_, ?_⟩
  · rw [firstIdx_eq_sum _ i (by simpa using Nat.le_of_lt hi)]
    have hcast : ((fns.map (fun f => f.nvals)).take i).map (fun n : ℕ => (n : ℤ) + 2) =
        (fns.take i).map (fun f => (f.nvals : ℤ) + 2) := by
      rw [← List.map_take, List.map_map]
      rfl
    rw [hcast, basePos]
    have hsum : ∀ l : List FuncDesc,
        (l.map (fun f => (f.nvals : ℤ) + 2)).sum =
          ((l.map (fun f => f.nvals + 2)).sum : ℕ) := by
      intro l
      induction l with
      | nil => simp
      | cons f l ih =>
        rw [List.map_cons, List.map_cons, List.sum_cons, List.sum_cons, ih]
        push_cast
        ring
    rw [hsum]
    ring
  · intro j hj
    have h := flatten_map_getD funcXcoord funcXcoord_length none fns i hi (j + 2) (by omega)
    rw [xcoordOf_def, h, funcXcoord_getD_sample _ j hj]
  · have h := flatten_map_getD funcXcoord funcXcoord_length none fns i hi 0 (by omega)
    rw [show basePos fns i + 0 = basePos fns i from by omega] at h
    rw [xcoordOf_def, h]
    rfl
  · have h := flatten_map_getD funcXcoord funcXcoord_length none fns i hi 1 (by omega)
    rw [xcoordOf_def, h]
    rfl

theorem read_pot_table3_step_xcoord_witness :
    0 < ([⟨FnKind.pair, false, 0, 1, 2, false, 0⟩] : List FuncDesc).length ∧
      (0 : ℕ) < (⟨FnKind.pair, false, 0, 1, 2, false, 0⟩ : FuncDesc).nvals ∧
      (xcoordOf [⟨FnKind.pair, false, 0, 1, 2, false, 0⟩]).getD
          (basePos [⟨FnKind.pair, false, 0, 1, 2, false, 0⟩] 0 + (0 + 2)) none =
        some ((⟨FnKind.pair, false, 0, 1, 2, false, 0⟩ : FuncDesc).begin_ +
          ((0 : ℕ) : ℚ) * stepOf ⟨FnKind.pair, false, 0, 1, 2, false, 0⟩) := by
  refine ⟨by decide, by decide, ?_⟩
  exact (read_pot_table3_step_xcoord [⟨FnKind.pair, false, 0, 1, 2, false, 0⟩] 0
    (by decide)).2.2.2.1 0 (by decide)

theorem read_pot_table3_idx_scan_rule_witness :
    (2 : ℕ) ∈ idxOf (eamLayout [⟨0, 1, 3, false, 3⟩] [] [⟨0, 2, 2, false, 0⟩]) := by
  have h := (read_pot_table3_idx_scan_rule [⟨0, 1, 3, false, 3⟩] [] [⟨0, 2, 2, false, 0⟩]
    0 (by decide)).2.2.2.1 0 (by decide)
  exact h.mpr (by decide)


/-! ### Lemmas about the input-consumption skeleton -/

theorem readValsAux_ok (file : String) (i : ℕ) :
    ∀ (m j : ℕ) (toks : List ℚ), m ≤ toks.length →
      readValsAux file i j m toks = .ok (toks.take m, toks.drop m) := by
  intro m
  induction m with
  | zero => intro j toks _; simp [readValsAux]
  | succ m ih =>
    intro j toks h
    cases toks with
    | nil => simp at h
    | cons v rest =>
      rw [readValsAux, ih (j + 1) rest (by simpa using h)]
      simp

theorem readValsAux_err (file : String) (i : ℕ) :
    ∀ (m j : ℕ) (toks : List ℚ), toks.length < m →
      readValsAux file i j m toks = .error (.valueLine file i (j + toks.length)) := by
  intro m
  induction m with
  | zero => intro j toks h; exact absurd h (Nat.not_lt_zero _)
  | succ m ih =>
    intro j toks h
    cases toks with
    | nil => simp [readValsAux]
    | cons v rest =>
      rw [readValsAux, ih (j + 1) rest (by simpa using h)]
      have harith : j + 1 + rest.length = j + (v :: rest).length := by
        simp only [List.length_cons]
        omega
      rw [harith]

theorem readHeaderAux_ok_drop (file : String) :
    ∀ (n i : ℕ) (toks : List ℚ) (hs : List PotHeader) (r : List ℚ),
      readHeaderAux file i n toks = .ok (hs, r) →
      r = toks.drop (3 * n) ∧ hs.length = n := by
  intro n
  induction n with
  | zero =>
    intro i toks hs r h
    rw [readHeaderAux] at h
    simp only [Except.ok.injEq, Prod.mk.injEq] at h
    obtain ⟨h1, h2⟩ := h
    subst h1
    subst h2
    simp
  | succ n ih =>
    intro i toks hs r h
    cases toks with
    | nil => simp [readHeaderAux] at h
    | cons b t1 =>
      cases t1 with
      | nil => simp [readHeaderAux] at h
      | cons e t2 =>
        cases t2 with
        | nil => simp [readHeaderAux] at h
        | cons nv rest =>
          rw [readHeaderAux] at h
          cases hrec : readHeaderAux file (i + 1) n rest with
          | error er => rw [hrec] at h; simp at h
          | ok pr =>
            obtain ⟨hs2, r2⟩ := pr
            rw [hrec] at h
            simp only [Except.ok.injEq, Prod.mk.injEq] at h
            obtain ⟨h1, h2⟩ := h
            subst h1
            subst h2
            obtain ⟨hr2, hlen⟩ := ih (i + 1) rest hs2 _ hrec
            constructor
            · rw [hr2]
              rw [show 3 * (n + 1) = 3 * n + 3 from by ring]
              rfl
            · simp [hlen]

theorem readHeaderAux_err (file : String) :
    ∀ (n i : ℕ) (toks : List ℚ), toks.length < 3 * n →
      ∃ i2, readHeaderAux file i n toks = .error (.infoBlock file i2) := by
  intro n
  induction n with
  | zero => intro i toks h; exact absurd h (by omega)
  | succ n ih =>
    intro i toks h
    cases toks with
    | nil => exact ⟨i, rfl⟩
    | cons b t1 =>
      cases t1 with
      | nil => exact ⟨i, rfl⟩
      | cons e t2 =>
        cases t2 with
        | nil => exact ⟨i, rfl⟩
        | cons nv rest =>
          have hlen : rest.length < 3 * n := by
            simp only [List.length_cons] at h
            omega
          obtain ⟨i2, hres⟩ := ih (i + 1) rest hlen
          refine ⟨i2, ?_⟩
          rw [readHeaderAux, hres]

theorem readHeaderAux_take (file : String) :
    ∀ (n i : ℕ) (toks : List ℚ) (hs : List PotHeader) (r : List ℚ) (t : ℕ),
      readHeaderAux file i n toks = .ok (hs, r) → 3 * n ≤ t →
      readHeaderAux file i n (toks.take t) = .ok (hs, (toks.take t).drop (3 * n)) := by
  intro n
  induction n with
  | zero =>
    intro i toks hs r t h ht
    rw [readHeaderAux] at h
    simp only [Except.ok.injEq, Prod.mk.injEq] at h
    obtain ⟨h1, -⟩ := h
    subst h1
    simp [readHeaderAux]
  | succ n ih =>
    intro i toks hs r t h ht
    cases toks with
    | nil => simp [readHeaderAux] at h
    | cons b t1 =>
      cases t1 with
      | nil => simp [readHeaderAux] at h
      | cons e t2 =>
        cases t2 with
        | nil => simp [readHeaderAux] at h
        | cons nv rest =>
          rw [readHeaderAux] at h
          cases hrec : readHeaderAux file (i + 1) n rest with
          | error er => rw [hrec] at h; simp at h
          | ok pr =>
            obtain ⟨hs2, r2⟩ := pr
            rw [hrec] at h
            simp only [Except.ok.injEq, Prod.mk.injEq] at h
            obtain ⟨h1, -⟩ := h
            subst h1
            obtain ⟨u, rfl⟩ : ∃ u, t = u + 3 := ⟨t - 3, by omega⟩
            have htake : (b :: e :: nv :: rest).take (u + 3) = b :: e :: nv :: rest.take u :=
              rfl
            rw [htake, readHeaderAux, ih (i + 1) rest hs2 r2 u hrec (by omega)]
            have hdrop : (b :: e :: nv :: rest.take u).drop (3 * (n + 1)) =
                (rest.take u).drop (3 * n) := by
              rw [show 3 * (n + 1) = 3 * n + 3 from by ring]
              rfl
            rw [hdrop]


theorem readGradVals_ok_inv (file : String) (i : ℕ) (k : FnKind) (nvals : ℕ) :
    ∀ (hg : Bool) (toks : List ℚ) (fv : FuncVals) (r : List ℚ),
      readGradVals file i k nvals hg toks = .ok (fv, r) →
      r = toks.drop ((if hg then 2 else 0) + nvals) ∧ fv.vals.length = nvals := by
  intro hg toks fv r hok
  cases hg with
  | false =>
    rw [readGradVals] at hok
    rcases Nat.lt_or_ge toks.length nvals with hlt | hge
    · rw [readValsAux_err file i nvals 0 toks hlt] at hok
      simp at hok
    · rw [readValsAux_ok file i nvals 0 toks hge] at hok
      simp only [Except.ok.injEq, Prod.mk.injEq] at hok
      obtain ⟨h1, h2⟩ := hok
      subst h1
      subst h2
      constructor
      · simp
      · simp [List.length_take]
        omega
  | true =>
    cases toks with
    | nil => simp [readGradVals] at hok
    | cons g1 t1 =>
      cases t1 with
      | nil => simp [readGradVals] at hok
      | cons g2 rest =>
        rw [readGradVals] at hok
        rcases Nat.lt_or_ge rest.length nvals with hlt | hge
        · rw [readValsAux_err file i nvals 0 rest hlt] at hok
          simp at hok
        · rw [readValsAux_ok file i nvals 0 rest hge] at hok
          simp only [Except.ok.injEq, Prod.mk.injEq] at hok
          obtain ⟨h1, h2⟩ := hok
          subst h1
          subst h2
          constructor
          · have hdrop : (g1 :: g2 :: rest).drop (2 + nvals) = rest.drop nvals := by
              rw [show (2 : ℕ) + nvals = nvals + 2 from by omega]
              rfl
            rw [if_pos rfl, hdrop]
          · simp [List.length_take]
            omega

theorem readGradVals_ok_of_len (file : String) (i : ℕ) (k : FnKind) (nvals : ℕ) :
    ∀ (hg : Bool) (toks : List ℚ), (if hg then 2 else 0) + nvals ≤ toks.length →
      ∃ fv, readGradVals file i k nvals hg toks =
        .ok (fv, toks.drop ((if hg then 2 else 0) + nvals)) := by
  intro hg toks hlen
  cases hg with
  | false =>
    rw [readGradVals, readValsAux_ok file i nvals 0 toks (by simpa using hlen)]
    exact ⟨⟨defaultGrad k, toks.take nvals⟩, by simp⟩
  | true =>
    cases toks with
    | nil => simp at hlen
    | cons g1 t1 =>
      cases t1 with
      | nil =>
        simp at hlen
        omega
      | cons g2 rest =>
        have hge : nvals ≤ rest.length := by
          simp at hlen
          omega
        rw [readGradVals, readValsAux_ok file i nvals 0 rest hge]
        refine ⟨⟨(g1, g2), rest.take nvals⟩, ?_⟩
        have hdrop : (g1 :: g2 :: rest).drop (2 + nvals) = rest.drop nvals := by
          rw [show (2 : ℕ) + nvals = nvals + 2 from by omega]
          rfl
        rw [if_pos rfl, hdrop]

theorem readGradVals_err (file : String) (i : ℕ) (k : FnKind) (nvals : ℕ) :
    ∀ (hg : Bool) (toks : List ℚ), toks.length < (if hg then 2 else 0) + nvals →
      ∃ er, readGradVals file i k nvals hg toks = .error er ∧
        errFile er = some file ∧ errFnIdx er = some i := by
  intro hg toks hlen
  cases hg with
  | false =>
    have hlt : toks.length < nvals := by simpa using hlen
    exact ⟨.valueLine file i (0 + toks.length),
      by rw [readGradVals, readValsAux_err file i nvals 0 toks hlt], rfl, rfl⟩
  | true =>
    cases toks with
    | nil => exact ⟨.gradLine file i, rfl, rfl, rfl⟩
    | cons g1 t1 =>
      cases t1 with
      | nil => exact ⟨.gradLine file i, rfl, rfl, rfl⟩
      | cons g2 rest =>
        have hlt : rest.length < nvals := by
          simp at hlen
          omega
        exact ⟨.valueLine file i (0 + rest.length),
          by rw [readGradVals, readValsAux_err file i nvals 0 rest hlt], rfl, rfl⟩

theorem readOneFunc_ok_inv (file : String) (rescale hg : Bool) (i : ℕ) (k : FnKind)
    (h : PotHeader) (toks : List ℚ) (fv : FuncVals) (r : List ℚ)
    (hok : readOneFunc file rescale hg i k h toks = .ok (fv, r)) :
    ¬(k = FnKind.embed ∧ rescale = false ∧ (1 < h.begin_ ∨ h.end_ < 1)) ∧
    r = toks.drop ((if hg then 2 else 0) + h.nvals) ∧ fv.vals.length = h.nvals := by
  by_cases hchk : k = FnKind.embed ∧ rescale = false ∧ (1 < h.begin_ ∨ h.end_ < 1)
  · rw [readOneFunc, if_pos hchk] at hok
    simp at hok
  · rw [readOneFunc, if_neg hchk] at hok
    exact ⟨hchk, readGradVals_ok_inv file i k h.nvals hg toks fv r hok⟩

theorem readOneFunc_err (file : String) (rescale hg : Bool) (i : ℕ) (k : FnKind)
    (h : PotHeader) (toks : List ℚ)
    (hchk : ¬(k = FnKind.embed ∧ rescale = false ∧ (1 < h.begin_ ∨ h.end_ < 1)))
    (hshort : toks.length < (if hg then 2 else 0) + h.nvals) :
    ∃ er, readOneFunc file rescale hg i k h toks = .error er ∧
      errFile er = some file ∧ errFnIdx er = some i := by
  obtain ⟨er, he, h1, h2⟩ := readGradVals_err file i k h.nvals hg toks hshort
  exact ⟨er, by rw [readOneFunc, if_neg hchk]; exact he, h1, h2⟩

theorem readFuncsAux_ok_inv (file : String) (rescale hg : Bool) :
    ∀ (fhs : List (FnKind × PotHeader)) (i : ℕ) (toks : List ℚ)
      (fvs : List FuncVals) (r : List ℚ),
      readFuncsAux file rescale hg i fhs toks = .ok (fvs, r) →
      noEmbedViol rescale fhs ∧
      r = toks.drop (neededToks hg fhs) ∧
      List.Forall₂ (fun (p : FnKind × PotHeader) (fv : FuncVals) =>
        fv.vals.length = p.2.nvals) fhs fvs := by
  intro fhs
  induction fhs with
  | nil =>
    intro i toks fvs r h
    rw [readFuncsAux] at h
    simp only [Except.ok.injEq, Prod.mk.injEq] at h
    obtain ⟨h1, h2⟩ := h
    subst h1
    subst h2
    refine ⟨?_, by simp [neededToks], List.Forall₂.nil⟩
    intro p hp
    simp at hp
  | cons kh fhs ih =>
    intro i toks fvs r h
    rw [readFuncsAux] at h
    split at h
    next fv r1 heq =>
      split at h
      next fvs2 r2 heq2 =>
        simp only [Except.ok.injEq, Prod.mk.injEq] at h
        obtain ⟨h1, h2⟩ := h
        subst h1
        subst h2
        obtain ⟨hchk, hr1, hlen1⟩ :=
          readOneFunc_ok_inv file rescale hg i kh.1 kh.2 toks fv r1 heq
        obtain ⟨hnv, hr2, hall⟩ := ih (i + 1) r1 fvs2 _ heq2
        refine ⟨?_, ?_, List.Forall₂.cons hlen1 hall⟩
        · intro p hp
          rcases List.mem_cons.mp hp with hp1 | hp2
          · subst hp1
            exact hchk
          · exact hnv p hp2
        · rw [hr2, hr1, List.drop_drop]
          congr 1
      next er heq2 => simp at h
    next er heq => simp at h

theorem readFuncsAux_err (file : String) (rescale hg : Bool) :
    ∀ (fhs : List (FnKind × PotHeader)) (i : ℕ) (toks : List ℚ),
      noEmbedViol rescale fhs → toks.length < neededToks hg fhs →
      ∃ er, readFuncsAux file rescale hg i fhs toks = .error er ∧
        errFile er = some file ∧ (errFnIdx er).isSome = true := by
  intro fhs
  induction fhs with
  | nil =>
    intro i toks _ h
    simp [neededToks] at h
  | cons kh fhs ih =>
    intro i toks hnv h
    have hchk : ¬(kh.1 = FnKind.embed ∧ rescale = false ∧
        (1 < kh.2.begin_ ∨ kh.2.end_ < 1)) :=
      hnv kh (List.mem_cons_self _ _)
    rcases Nat.lt_or_ge toks.length ((if hg then 2 else 0) + kh.2.nvals) with hsh | hge
    · obtain ⟨er, he, h1, h2⟩ := readOneFunc_err file rescale hg i kh.1 kh.2 toks hchk hsh
      refine ⟨er, ?_, h1, by rw [h2]; rfl⟩
      rw [readFuncsAux, he]
    · obtain ⟨fv, hone⟩ := readGradVals_ok_of_len file i kh.1 kh.2.nvals hg toks hge
      have honef : readOneFunc file rescale hg i kh.1 kh.2 toks =
          .ok (fv, toks.drop ((if hg then 2 else 0) + kh.2.nvals)) := by
        rw [readOneFunc, if_neg hchk]
        exact hone
      have hcons : neededToks hg (kh :: fhs) =
          ((if hg = true then 2 else 0) + kh.2.nvals) + neededToks hg fhs := by
        simp only [neededToks, List.map_cons, List.sum_cons]
      have htail : (toks.drop ((if hg then 2 else 0) + kh.2.nvals)).length <
          neededToks hg fhs := by
        rw [List.length_drop]
        rw [hcons] at h
        omega
      obtain ⟨er, he, h1, h2⟩ := ih (i + 1) _ (fun p hp => hnv p (List.mem_cons_of_mem _ hp)) htail
      refine ⟨er, ?_, h1, h2⟩
      rw [readFuncsAux, honef]
      simp only [he]


/-- C4 counterexample: a potential file whose only function declares
begin = 1 > end = 0 — hence a negative step — is read to completion without
any fatal error, so a non-positive step is not detected by read_pot_table3. -/
theorem read_pot_table3_no_step_check :
    read_pot_table3 startpotName true true [FnKind.pair] [1, 0, 2, 7, 8, 5, 6]
        = .ok ([⟨1, 0, 2⟩], [⟨(7, 8), [5, 6]⟩], []) ∧
      headerStep ⟨1, 0, 2⟩ < 0 := by
  refine ⟨rfl, ?_⟩
  norm_num [headerStep]

/-- C4 (amended): read_pot_table3 fails fatally, with a diagnostic carrying
the potential file name and the offending function (and for sample lines the
line) index, on any incomplete input — a header line with fewer than three
fields, a missing gradient line when gradients are declared, or fewer sample
values than declared: every proper truncation of a successfully read token
stream is rejected with such a diagnostic, and a successful read stores
exactly the declared number of samples for every function, so no partial
table is ever returned.  (A non-positive step, however, is not detected:
see the counterexample.) -/
theorem read_pot_table3_truncation_fatal (file : String) (rescale hg : Bool)
    (kinds : List FnKind) (toks : List ℚ) (hs : List PotHeader)
    (fvs : List FuncVals) (rest : List ℚ)
    (hok : read_pot_table3 file rescale hg kinds toks = .ok (hs, fvs, rest)) :
    hs.length = kinds.length ∧
    List.Forall₂ (fun (p : FnKind × PotHeader) (fv : FuncVals) =>
      fv.vals.length = p.2.nvals) (kinds.zip hs) fvs ∧
    (∀ t, t < toks.length - rest.length →
      ∃ er, read_pot_table3 file rescale hg kinds (toks.take t) = .error er ∧
        errFile er = some file ∧ (errFnIdx er).isSome = true) := by
  rw [read_pot_table3] at hok
  split at hok
  next hs0 rest0 hh =>
    split at hok
    next fvs0 r0 hf =>
      simp only [Except.ok.injEq, Prod.mk.injEq] at hok
      obtain ⟨h1, h2, h3⟩ := hok
      subst h1
      subst h2
      subst h3
      obtain ⟨hr0, hlen0⟩ := readHeaderAux_ok_drop file kinds.length 0 toks hs0 rest0 hh
      obtain ⟨hnv, hrr, hall⟩ :=
        readFuncsAux_ok_inv file rescale hg (kinds.zip hs0) 0 rest0 fvs0 r0 hf
      refine ⟨hlen0, hall, ?_⟩
      intro t ht
      have hlen3 : 3 * kinds.length ≤ toks.length := by
        by_contra hcon
        push_neg at hcon
        obtain ⟨i2, he⟩ := readHeaderAux_err file kinds.length 0 toks hcon
        rw [he] at hh
        simp at hh
      have hneed : neededToks hg (kinds.zip hs0) ≤ rest0.length := by
        by_contra hcon
        push_neg at hcon
        obtain ⟨er, he, -, -⟩ :=
          readFuncsAux_err file rescale hg (kinds.zip hs0) 0 rest0 hnv hcon
        rw [he] at hf
        simp at hf
      have hrest0len : rest0.length = toks.length - 3 * kinds.length := by
        rw [hr0, List.length_drop]
      have hrestlen : r0.length = rest0.length - neededToks hg (kinds.zip hs0) := by
        rw [hrr, List.length_drop]
      rcases Nat.lt_or_ge t (3 * kinds.length) with hcase | hcase
      · have hshort : (toks.take t).length < 3 * kinds.length := by
          rw [List.length_take]
          omega
        obtain ⟨i2, he⟩ := readHeaderAux_err file kinds.length 0 (toks.take t) hshort
        refine ⟨.infoBlock file i2, ?_, rfl, rfl⟩
        rw [read_pot_table3, he]
      · have hht := readHeaderAux_take file kinds.length 0 toks hs0 rest0 t hh hcase
        have hshort : ((toks.take t).drop (3 * kinds.length)).length <
            neededToks hg (kinds.zip hs0) := by
          rw [List.length_drop, List.length_take]
          omega
        obtain ⟨er, he, hef, hei⟩ :=
          readFuncsAux_err file rescale hg (kinds.zip hs0) 0
            ((toks.take t).drop (3 * kinds.length)) hnv hshort
        refine ⟨er, ?_, hef, hei⟩
        rw [read_pot_table3, hht]
        simp only [he]
    next er hf =>
      simp at hok
  next er hh =>
    simp at hok

theorem read_pot_table3_truncation_fatal_witness :
    read_pot_table3 startpotName true true [FnKind.pair] [1, 0, 2, 7, 8, 5, 6]
        = .ok ([⟨1, 0, 2⟩], [⟨(7, 8), [5, 6]⟩], []) ∧
      (4 : ℕ) < ([1, 0, 2, 7, 8, 5, 6] : List ℚ).length - ([] : List ℚ).length ∧
      ∃ er, read_pot_table3 startpotName true true [FnKind.pair]
          (([1, 0, 2, 7, 8, 5, 6] : List ℚ).take 4) = .error er ∧
        errFile er = some startpotName ∧ (errFnIdx er).isSome = true := by
  have hok : read_pot_table3 startpotName true true [FnKind.pair] [1, 0, 2, 7, 8, 5, 6]
      = .ok ([⟨1, 0, 2⟩], [⟨(7, 8), [5, 6]⟩], []) := rfl
  refine ⟨hok, by simp, ?_⟩
  exact (read_pot_table3_truncation_fatal startpotName true true [FnKind.pair]
    [1, 0, 2, 7, 8, 5, 6] [⟨1, 0, 2⟩] [⟨(7, 8), [5, 6]⟩] [] hok).2.2 4 (by simp)

/-- C9: in the non-RESCALE build, whenever read_pot_table3 succeeds every
embedding function's declared domain contains 1.0 (begin <= 1 <= end), so
F'(1.0) is computable for the gauge fixing; and the domain check aborts an
embedding function's iteration before reading anything of that function —
on a violating domain readOneFunc fails with the domain diagnostic for every
token stream, even an empty one. -/
theorem read_pot_table3_embed_domain (file : String) (hg : Bool)
    (kinds : List FnKind) (toks : List ℚ) (hs : List PotHeader)
    (fvs : List FuncVals) (rest : List ℚ)
    (hok : read_pot_table3 file false hg kinds toks = .ok (hs, fvs, rest)) :
    (∀ p ∈ kinds.zip hs, p.1 = FnKind.embed → p.2.begin_ ≤ 1 ∧ 1 ≤ p.2.end_) ∧
    (∀ (file2 : String) (hg2 : Bool) (i : ℕ) (h2 : PotHeader) (toks2 : List ℚ),
      1 < h2.begin_ ∨ h2.end_ < 1 →
      readOneFunc file2 false hg2 i FnKind.embed h2 toks2 =
        .error (.embedDomain h2.begin_ h2.end_)) := by
  constructor
  · rw [read_pot_table3] at hok
    split at hok
    next hs0 rest0 hh =>
      split at hok
      next fvs0 r0 hf =>
        simp only [Except.ok.injEq, Prod.mk.injEq] at hok
        obtain ⟨h1, h2, h3⟩ := hok
        subst h1
        subst h2
        subst h3
        obtain ⟨hnv, -, -⟩ :=
          readFuncsAux_ok_inv file false hg (kinds.zip hs0) 0 rest0 fvs0 r0 hf
        intro p hp hemb
        have hv := hnv p hp
        constructor
        · by_contra hcon
          push_neg at hcon
          exact hv ⟨hemb, rfl, Or.inl hcon⟩
        · by_contra hcon
          push_neg at hcon
          exact hv ⟨hemb, rfl, Or.inr hcon⟩
      next er hf => simp at hok
    next er hh => simp at hok
  · intro file2 hg2 i h2 toks2 hviol
    rw [readOneFunc, if_pos ⟨rfl, rfl, hviol⟩]

theorem read_pot_table3_embed_domain_witness :
    read_pot_table3 startpotName false true [FnKind.embed] [0, 2, 2, 9, 9, 4, 5]
        = .ok ([⟨0, 2, 2⟩], [⟨(9, 9), [4, 5]⟩], []) ∧
      ((⟨0, 2, 2⟩ : PotHeader).begin_ ≤ 1 ∧ 1 ≤ (⟨0, 2, 2⟩ : PotHeader).end_) ∧
      ((1 : ℚ) < (⟨2, 3, 5⟩ : PotHeader).begin_ ∨ (⟨2, 3, 5⟩ : PotHeader).end_ < 1) ∧
      readOneFunc startpotName false false 3 FnKind.embed ⟨2, 3, 5⟩ []
        = .error (.embedDomain 2 3) := by
  have hok : read_pot_table3 startpotName false true [FnKind.embed] [0, 2, 2, 9, 9, 4, 5]
      = .ok ([⟨0, 2, 2⟩], [⟨(9, 9), [4, 5]⟩], []) := rfl
  have h := read_pot_table3_embed_domain startpotName true [FnKind.embed]
    [0, 2, 2, 9, 9, 4, 5] [⟨0, 2, 2⟩] [⟨(9, 9), [4, 5]⟩] [] hok
  have hviol : (1 : ℚ) < (⟨2, 3, 5⟩ : PotHeader).begin_ ∨
      (⟨2, 3, 5⟩ : PotHeader).end_ < 1 := by
    left
    norm_num
  exact ⟨hok, h.1 (FnKind.embed, ⟨0, 2, 2⟩) (by decide) rfl,
    hviol, h.2 startpotName false 3 ⟨2, 3, 5⟩ [] hviol⟩


/-- C8 counterexample: read_configuration returns a configuration whose body
names an element without a chemical potential, yet — because no total energy
line was read — the conversion does not fail; so the fatal check does not
run for every such configuration. -/
theorem read_configuration_energy_no_energy_no_check :
    lookupPot [] elXx = none ∧
      read_configuration_energy none [(elXx, 1)] [] = .ok none :=
  ⟨rfl, rfl⟩

/-- C8 (amended): whenever the configuration carries a total energy, an
element of its body without a chemical potential makes the conversion fail
fatally, with the diagnostic naming the first such element. -/
theorem read_configuration_energy_missing_element (e0 : ℚ) (body : List (String × ℕ))
    (pots : List (String × ℚ))
    (h : ∃ p ∈ body, lookupPot pots p.1 = none) :
    ∃ el, (∃ p ∈ body, p.1 = el) ∧ lookupPot pots el = none ∧
      read_configuration_energy (some e0) body pots = .error (missingPotMsg el) := by
  have hs : ∀ (body2 : List (String × ℕ)), (∃ p ∈ body2, lookupPot pots p.1 = none) →
      ∀ (e : ℚ) (n : ℕ), ∃ el, (∃ p ∈ body2, p.1 = el) ∧ lookupPot pots el = none ∧
        subtractPots pots body2 e n = .error (missingPotMsg el) := by
    intro body2
    induction body2 with
    | nil =>
      rintro ⟨p, hp, -⟩
      exact absurd hp (List.not_mem_nil p)
    | cons q body2 ih =>
      obtain ⟨el, cnt⟩ := q
      intro h2 e n
      cases hq : lookupPot pots el with
      | none =>
        refine ⟨el, ⟨(el, cnt), List.mem_cons_self _ _, rfl⟩, hq, ?_⟩
        rw [subtractPots, hq]
      | some p =>
        have h3 : ∃ r ∈ body2, lookupPot pots r.1 = none := by
          rcases h2 with ⟨r, hr, hrl⟩
          rcases List.mem_cons.mp hr with hr1 | hr2
          · subst hr1
            simp [hq] at hrl
          · exact ⟨r, hr2, hrl⟩
        obtain ⟨el2, ⟨r, hr, hrel⟩, hlk, herr⟩ := ih h3 (e - p * (cnt : ℚ)) (n + cnt)
        refine ⟨el2, ⟨r, List.mem_cons_of_mem _ hr, hrel⟩, hlk, ?_⟩
        rw [subtractPots, hq]
        exact herr
  obtain ⟨el, hmem, hlk, herr⟩ := hs body h e0 0
  refine ⟨el, hmem, hlk, ?_⟩
  rw [read_configuration_energy, herr]

theorem read_configuration_energy_missing_element_witness :
    (∃ p ∈ [(elXx, 2)], lookupPot [] p.1 = none) ∧
      ∃ el, (∃ p ∈ [(elXx, 2)], p.1 = el) ∧ lookupPot [] el = none ∧
        read_configuration_energy (some 5) [(elXx, 2)] [] = .error (missingPotMsg el) := by
  refine ⟨⟨(elXx, 2), by simp, rfl⟩, ?_⟩
  exact read_configuration_energy_missing_element 5 [(elXx, 2)] []
    ⟨(elXx, 2), by simp, rfl⟩

/-- C10: after init_calc_table3 the calculation table is a live alias of the
optimization table: the scalars len, idxlen, ncols are copied by value, all
of begin, end, step, invstep, first, last, xcoord, table, d2tab, idx of
calc_pot reference the very same buffers as opt_pot (no member of calc_pot
owns separate storage), a write through opt_pot.table is observed when
reading through calc_pot.table, and opt_pot itself is unchanged. -/
theorem init_calc_table3_aliases (g : g_pot_t) :
    ((init_calc_table3 g).calc_pot.len = (init_calc_table3 g).opt_pot.len ∧
      (init_calc_table3 g).calc_pot.idxlen = (init_calc_table3 g).opt_pot.idxlen ∧
      (init_calc_table3 g).calc_pot.ncols = (init_calc_table3 g).opt_pot.ncols) ∧
    ((init_calc_table3 g).calc_pot.begin_ = (init_calc_table3 g).opt_pot.begin_ ∧
      (init_calc_table3 g).calc_pot.end_ = (init_calc_table3 g).opt_pot.end_ ∧
      (init_calc_table3 g).calc_pot.step = (init_calc_table3 g).opt_pot.step ∧
      (init_calc_table3 g).calc_pot.invstep = (init_calc_table3 g).opt_pot.invstep ∧
      (init_calc_table3 g).calc_pot.first = (init_calc_table3 g).opt_pot.first ∧
      (init_calc_table3 g).calc_pot.last = (init_calc_table3 g).opt_pot.last ∧
      (init_calc_table3 g).calc_pot.xcoord = (init_calc_table3 g).opt_pot.xcoord ∧
      (init_calc_table3 g).calc_pot.table = (init_calc_table3 g).opt_pot.table ∧
      (init_calc_table3 g).calc_pot.d2tab = (init_calc_table3 g).opt_pot.d2tab ∧
      (init_calc_table3 g).calc_pot.idx = (init_calc_table3 g).opt_pot.idx) ∧
    (∀ (st : Store) (j : ℕ) (v : ℚ),
      readBuf (writeBuf st (init_calc_table3 g).opt_pot.table j v)
          (init_calc_table3 g).calc_pot.table =
        (st (init_calc_table3 g).opt_pot.table).set j v) ∧
    (init_calc_table3 g).opt_pot = g.opt_pot := by
  refine ⟨⟨rfl, rfl, rfl⟩,
    ⟨rfl, rfl, rfl, rfl, rfl, rfl, rfl, rfl, rfl, rfl⟩, ?_, rfl⟩
  intro st j v
  rw [readBuf, writeBuf]
  simp [init_calc_table3]


/-! ### Lemmas about the numeric field formatter -/

theorem digitsRevFuel_eq_digits :
    ∀ (f n : ℕ), n ≤ f → digitsRevFuel f n = Nat.digits 10 n := by
  intro f
  induction f with
  | zero =>
    intro n hn
    have h0 : n = 0 := by omega
    subst h0
    simp [digitsRevFuel]
  | succ f ih =>
    intro n hn
    by_cases h0 : n = 0
    · subst h0
      simp [digitsRevFuel]
    · rw [digitsRevFuel, if_neg h0,
        Nat.digits_def' (by norm_num : (1 : ℕ) < 10) (Nat.pos_of_ne_zero h0),
        ih (n / 10) ?_]
      have := Nat.div_lt_self (Nat.pos_of_ne_zero h0) (by norm_num : (1 : ℕ) < 10)
      omega

theorem natChars_length_of_ne (n : ℕ) (hn : n ≠ 0) :
    (natChars n).length = Nat.log 10 n + 1 := by
  rw [natChars, if_neg hn, List.length_map, List.length_reverse,
    digitsRevFuel_eq_digits n n le_rfl,
    Nat.digits_len 10 n (by norm_num) hn]

theorem digitChar_not_special :
    ∀ d : ℕ, d < 10 → Nat.digitChar d ≠ '.' ∧ Nat.digitChar d ≠ 'E' ∧
      Nat.digitChar d ≠ ' ' ∧ Nat.digitChar d ≠ '-' := by
  decide

theorem natChars_not_special (n : ℕ) :
    ∀ c ∈ natChars n, c ≠ '.' ∧ c ≠ 'E' := by
  intro c hc
  rw [natChars] at hc
  by_cases h0 : n = 0
  · rw [if_pos h0] at hc
    simp at hc
    subst hc
    exact ⟨by decide, by decide⟩
  · rw [if_neg h0, digitsRevFuel_eq_digits n n le_rfl] at hc
    rcases List.mem_map.mp hc with ⟨d, hd, rfl⟩
    have hd10 : d < 10 := Nat.digits_lt_base (by norm_num) (List.mem_reverse.mp hd)
    exact ⟨(digitChar_not_special d hd10).1, (digitChar_not_special d hd10).2.1⟩

theorem expUp_bounds :
    ∀ (f : ℕ) (a : ℚ), 1 ≤ a → a < 10 ^ (f + 1) →
      (10 : ℚ) ^ expUp f a ≤ a ∧ a < 10 ^ (expUp f a + 1) := by
  intro f
  induction f with
  | zero =>
    intro a h1 h2
    rw [expUp]
    exact ⟨by simpa using h1, by simpa using h2⟩
  | succ f ih =>
    intro a h1 h2
    rw [expUp]
    by_cases hlt : a < 10
    · rw [if_pos hlt]
      exact ⟨by simpa using h1, by simpa using hlt⟩
    · rw [if_neg hlt]
      push_neg at hlt
      have h1' : 1 ≤ a / 10 := by
        rw [le_div_iff (by norm_num : (0 : ℚ) < 10)]
        simpa using hlt
      have h2' : a / 10 < 10 ^ (f + 1) := by
        rw [div_lt_iff (by norm_num : (0 : ℚ) < 10)]
        calc a < 10 ^ (f + 1 + 1) := h2
        _ = 10 ^ (f + 1) * 10 := by ring
      obtain ⟨hl, hr⟩ := ih (a / 10) h1' h2'
      constructor
      · rw [pow_succ]
        calc (10 : ℚ) ^ expUp f (a / 10) * 10 ≤ a / 10 * 10 := by
              exact mul_le_mul_of_nonneg_right hl (by norm_num)
        _ = a := by field_simp
      · have : a / 10 * 10 < 10 ^ (expUp f (a / 10) + 1) * 10 :=
          mul_lt_mul_of_pos_right hr (by norm_num)
        calc a = a / 10 * 10 := by field_simp
        _ < 10 ^ (expUp f (a / 10) + 1) * 10 := this
        _ = 10 ^ (expUp f (a / 10) + 1 + 1) := by ring

theorem expDown_bounds :
    ∀ (f : ℕ) (a : ℚ), 0 < a → a < 1 → 1 ≤ a * 10 ^ f →
      1 ≤ a * 10 ^ expDown f a ∧ a * 10 ^ expDown f a < 10 := by
  intro f
  induction f with
  | zero =>
    intro a h0 h1 hf
    simp only [pow_zero, mul_one] at hf
    exact absurd h1 (by exact not_lt.mpr hf)
  | succ f ih =>
    intro a h0 h1 hf
    rw [expDown, if_neg (not_le.mpr h1)]
    by_cases h10 : 1 ≤ a * 10
    · have hup : expDown f (a * 10) = 0 := by
        cases f with
        | zero => rfl
        | succ f2 => rw [expDown, if_pos h10]
      rw [hup]
      constructor
      · simpa [pow_succ] using h10
      · have : a * 10 < 10 := by nlinarith
        simpa [pow_succ] using this
    · push_neg at h10
      have h10' : a * 10 < 1 := h10
      have hf' : 1 ≤ a * 10 * 10 ^ f := by
        calc (1 : ℚ) ≤ a * 10 ^ (f + 1) := hf
        _ = a * 10 * 10 ^ f := by ring
      obtain ⟨hl, hr⟩ := ih (a * 10) (by nlinarith) h10' hf'
      constructor
      · calc (1 : ℚ) ≤ a * 10 * 10 ^ expDown f (a * 10) := hl
        _ = a * 10 ^ (expDown f (a * 10) + 1) := by ring
      · calc a * 10 ^ (expDown f (a * 10) + 1) = a * 10 * 10 ^ expDown f (a * 10) := by
              ring
        _ < 10 := hr

theorem rat_le_num (a : ℚ) (ha : 1 ≤ a) : a ≤ (a.num : ℚ) := by
  have hden0 : (0 : ℚ) < (a.den : ℚ) := by exact_mod_cast a.pos
  have hden1 : (1 : ℚ) ≤ (a.den : ℚ) := by exact_mod_cast a.pos
  have h := Rat.num_div_den a
  rw [div_eq_iff (ne_of_gt hden0)] at h
  nlinarith [h]


theorem exp10_bounds (a : ℚ) (ha : 0 < a) :
    (10 : ℚ) ^ exp10 a ≤ a ∧ a < (10 : ℚ) ^ (exp10 a + 1) := by
  rw [exp10]
  by_cases h1 : 1 ≤ a
  · rw [if_pos h1]
    have hnum : a ≤ (a.num : ℚ) := rat_le_num a h1
    have hnn : 0 ≤ a.num := Rat.num_nonneg.mpr (le_of_lt ha)
    have hnatabs : (a.num : ℚ) = (a.num.natAbs : ℚ) := by
      rw [Int.cast_natAbs, abs_of_nonneg hnn]
    have hfuel : a < 10 ^ (a.num.natAbs + 1) := by
      have h2 : (a.num.natAbs : ℚ) < 10 ^ a.num.natAbs := by
        exact_mod_cast Nat.lt_pow_self (by norm_num) a.num.natAbs
      calc a ≤ (a.num : ℚ) := hnum
      _ = (a.num.natAbs : ℚ) := hnatabs
      _ < 10 ^ a.num.natAbs := h2
      _ ≤ 10 ^ (a.num.natAbs + 1) := by
            exact pow_le_pow_right (by norm_num) (by omega)
    obtain ⟨hl, hr⟩ := expUp_bounds a.num.natAbs a h1 hfuel
    constructor
    · rw [zpow_natCast]
      exact hl
    · have hcast : ((expUp a.num.natAbs a : ℕ) : ℤ) + 1 =
          ((expUp a.num.natAbs a + 1 : ℕ) : ℤ) := by push_cast; ring
      rw [hcast, zpow_natCast]
      exact hr
  · rw [if_neg h1]
    push_neg at h1
    have hden0 : (0 : ℚ) < (a.den : ℚ) := by exact_mod_cast a.pos
    have h1a : 1 / (a.den : ℚ) ≤ a := by
      rw [div_le_iff hden0]
      have h := Rat.num_div_den a
      rw [div_eq_iff (ne_of_gt hden0)] at h
      have hnum1 : (1 : ℚ) ≤ (a.num : ℚ) := by
        have := Rat.num_pos.mpr ha
        exact_mod_cast this
      nlinarith [h]
    have hfuel : 1 ≤ a * 10 ^ a.den := by
      have hden : (a.den : ℚ) < 10 ^ a.den := by
        exact_mod_cast Nat.lt_pow_self (by norm_num) a.den
      have hp : (0 : ℚ) < 10 ^ a.den := by positivity
      calc (1 : ℚ) = (a.den : ℚ) / (a.den : ℚ) := by field_simp
      _ ≤ 10 ^ a.den / (a.den : ℚ) := (div_le_div_right hden0).mpr (le_of_lt hden)
      _ = (1 / (a.den : ℚ)) * 10 ^ a.den := by ring
      _ ≤ a * 10 ^ a.den := mul_le_mul_of_nonneg_right h1a (le_of_lt hp)
    obtain ⟨hl, hr⟩ := expDown_bounds a.den a ha h1 hfuel
    have hp : (0 : ℚ) < 10 ^ expDown a.den a := by positivity
    constructor
    · rw [zpow_neg, zpow_natCast, inv_eq_one_div, div_le_iff hp]
      linarith [hl]
    · have hlt : a < 10 / 10 ^ expDown a.den a := by
        rw [lt_div_iff hp]
        exact hr
      calc a < 10 / 10 ^ expDown a.den a := hlt
      _ = 10 ^ (-(expDown a.den a : ℤ) + 1) := by
            rw [zpow_add₀ (by norm_num : (10 : ℚ) ≠ 0), zpow_neg, zpow_natCast, zpow_one]
            ring


theorem roundHalfEven_bounds (q : ℚ) :
    ⌊q⌋ ≤ roundHalfEven q ∧ roundHalfEven q ≤ ⌊q⌋ + 1 := by
  rw [roundHalfEven]
  split_ifs <;> omega

theorem roundHalfEven_natCast (n : ℕ) : roundHalfEven ((n : ℕ) : ℚ) = (n : ℤ) := by
  rw [roundHalfEven, Int.floor_natCast]
  simp

theorem cast_pow_ten (k : ℕ) : (((10 : ℤ) ^ k : ℤ) : ℚ) = (10 : ℚ) ^ (k : ℤ) := by
  push_cast
  rw [zpow_natCast]

theorem mantExp_bounds (prec : ℕ) (x : ℚ) (hx : x ≠ 0) :
    10 ^ prec ≤ (mantExp prec x).1 ∧ (mantExp prec x).1 < 10 ^ (prec + 1) := by
  have ha : 0 < |x| := abs_pos.mpr hx
  obtain ⟨hl, hr⟩ := exp10_bounds |x| ha
  rw [mantExp]
  set e := exp10 |x| with he
  set q := |x| * (10 : ℚ) ^ ((prec : ℤ) - e) with hq
  have hp1 : (0 : ℚ) < (10 : ℚ) ^ ((prec : ℤ) - e) := by positivity
  have hql : ((10 : ℚ) ^ (prec : ℤ)) ≤ q := by
    rw [hq]
    calc (10 : ℚ) ^ (prec : ℤ) = 10 ^ e * 10 ^ ((prec : ℤ) - e) := by
          rw [← zpow_add₀ (by norm_num : (10 : ℚ) ≠ 0)]
          congr 1
          omega
    _ ≤ |x| * 10 ^ ((prec : ℤ) - e) := mul_le_mul_of_nonneg_right hl (le_of_lt hp1)
  have hqr : q < (10 : ℚ) ^ ((prec : ℤ) + 1) := by
    rw [hq]
    calc |x| * 10 ^ ((prec : ℤ) - e) < 10 ^ (e + 1) * 10 ^ ((prec : ℤ) - e) :=
          mul_lt_mul_of_pos_right hr hp1
    _ = 10 ^ ((prec : ℤ) + 1) := by
          rw [← zpow_add₀ (by norm_num : (10 : ℚ) ≠ 0)]
          congr 1
          omega
  have hfl : ((10 ^ prec : ℕ) : ℤ) ≤ ⌊q⌋ := by
    apply Int.le_floor.mpr
    have hcast : (((10 ^ prec : ℕ) : ℤ) : ℚ) = (10 : ℚ) ^ (prec : ℤ) := by
      push_cast
      rw [zpow_natCast]
    rw [hcast]
    exact hql
  have hfr : ⌊q⌋ < ((10 ^ (prec + 1) : ℕ) : ℤ) := by
    apply Int.floor_lt.mpr
    have hcast : (((10 ^ (prec + 1) : ℕ) : ℤ) : ℚ) = (10 : ℚ) ^ ((prec : ℤ) + 1) := by
      push_cast
      rw [← zpow_natCast]
      congr 1
    rw [hcast]
    exact hqr
  obtain ⟨hrl, hrr⟩ := roundHalfEven_bounds q
  by_cases hten : (roundHalfEven q).toNat = 10 ^ (prec + 1)
  · rw [if_pos hten]
    constructor
    · exact le_rfl
    · exact Nat.pow_lt_pow_right (by norm_num) (Nat.lt_succ_self prec)
  · rw [if_neg hten]
    constructor
    · omega
    · omega


theorem dropWhile_append_all {p : Char → Bool} :
    ∀ (l1 l2 : List Char), (∀ c ∈ l1, p c = true) →
      (l1 ++ l2).dropWhile p = l2.dropWhile p := by
  intro l1
  induction l1 with
  | nil => intro l2 _; rfl
  | cons c l1 ih =>
    intro l2 h
    rw [List.cons_append, List.dropWhile_cons, if_pos (h c (List.mem_cons_self c l1))]
    exact ih l2 (fun d hd => h d (List.mem_cons_of_mem c hd))

theorem takeWhile_append_all {p : Char → Bool} :
    ∀ (l1 : List Char), (∀ c ∈ l1, p c = true) →
      ∀ (e : Char), p e = false → ∀ (l2 : List Char),
        (l1 ++ e :: l2).takeWhile p = l1 := by
  intro l1
  induction l1 with
  | nil =>
    intro _ e he l2
    rw [List.nil_append, List.takeWhile_cons, if_neg (by simp [he])]
  | cons c l1 ih =>
    intro h e he l2
    rw [List.cons_append, List.takeWhile_cons, if_pos (h c (List.mem_cons_self c l1))]
    rw [ih (fun d hd => h d (List.mem_cons_of_mem c hd)) e he l2]

theorem fracCount_form (P T R : List Char) (hP : ∀ c ∈ P, c ≠ '.')
    (hT : ∀ c ∈ T, c ≠ 'E') :
    fracCount (P ++ '.' :: (T ++ 'E' :: R)) = T.length := by
  rw [fracCount]
  have h1 : (P ++ '.' :: (T ++ 'E' :: R)).dropWhile (fun c => c != '.') =
      '.' :: (T ++ 'E' :: R) := by
    rw [dropWhile_append_all P _ (fun c hc => by simp [hP c hc])]
    rw [List.dropWhile_cons, if_neg (by simp)]
  rw [h1, List.drop_succ_cons, List.drop_zero,
    takeWhile_append_all T (fun c hc => by simp [hT c hc]) 'E' (by simp) R]

theorem padLeft_len_ge (w : ℕ) (s : List Char) : w ≤ (padLeft w s).length := by
  rw [padLeft, List.length_append, List.length_replicate]
  omega

theorem padLeft_len_eq (w : ℕ) (s : List Char) (h : s.length ≤ w) :
    (padLeft w s).length = w := by
  rw [padLeft, List.length_append, List.length_replicate]
  omega

theorem natChars_length_lt10 (n : ℕ) (h : n < 10) : (natChars n).length = 1 := by
  by_cases h0 : n = 0
  · subst h0
    rfl
  · rw [natChars_length_of_ne n h0, Nat.log_of_lt h]

theorem natChars_length_lt100 (n : ℕ) (h10 : 10 ≤ n) (h : n < 100) :
    (natChars n).length = 2 := by
  have hn0 : n ≠ 0 := by omega
  have hlog : Nat.log 10 n = 1 :=
    @Nat.log_eq_of_pow_le_of_lt_pow 10 1 n (by norm_num; omega) (by norm_num; omega)
  rw [natChars_length_of_ne n hn0, hlog]

theorem expChars_length_le (e : ℤ) (h : e.natAbs < 100) : (expChars e).length = 3 := by
  rw [expChars]
  by_cases h10 : e.natAbs < 10
  · rw [if_pos h10]
    simp [natChars_length_lt10 e.natAbs h10]
  · rw [if_neg h10]
    push_neg at h10
    simp [natChars_length_lt100 e.natAbs h10 h]


theorem fracCount_fmt_aux (n : ℕ) (sign ds ec : List Char)
    (hsign : ∀ c ∈ sign, c = '-') (hds : ∀ c ∈ ds, c ≠ '.' ∧ c ≠ 'E') :
    fracCount ((List.replicate n ' ' ++ sign ++ ds.take 1) ++
      '.' :: (ds.drop 1 ++ 'E' :: ec)) = (ds.drop 1).length := by
  apply fracCount_form
  · intro c hc
    rcases List.mem_append.mp hc with hc1 | hc2
    · rcases List.mem_append.mp hc1 with hc3 | hc4
      · rw [List.eq_of_mem_replicate hc3]
        decide
      · rw [hsign c hc4]
        decide
    · exact (hds c (List.take_subset 1 ds hc2)).1
  · intro c hc
    exact (hds c (List.drop_subset 1 ds hc)).2

theorem natChars_mant17 (x : ℚ) (hx : x ≠ 0) :
    (natChars (mantExp 16 x).1).length = 17 := by
  obtain ⟨hml, hmr⟩ := mantExp_bounds 16 x hx
  have hpow : 0 < 10 ^ 16 := by positivity
  have hm0 : (mantExp 16 x).1 ≠ 0 := by omega
  rw [natChars_length_of_ne _ hm0, Nat.log_eq_of_pow_le_of_lt_pow hml hmr]

theorem fmt2316_props (x : ℚ) :
    23 ≤ (fmt2316 x).length ∧ fracCount (fmt2316 x) = 16 := by
  refine ⟨padLeft_len_ge 23 (fmtE 16 x), ?_⟩
  by_cases hx : x = 0
  · subst hx
    decide
  · have h17 := natChars_mant17 x hx
    rw [fmt2316, padLeft, fmtE, if_neg hx]
    have hassoc : ∀ (n : ℕ) (sign : List Char),
        List.replicate n ' ' ++ (sign ++
          ((natChars (mantExp 16 x).1).take 1 ++
            '.' :: (natChars (mantExp 16 x).1).drop 1) ++
            'E' :: expChars (mantExp 16 x).2) =
        (List.replicate n ' ' ++ sign ++ (natChars (mantExp 16 x).1).take 1) ++
          '.' :: ((natChars (mantExp 16 x).1).drop 1 ++
            'E' :: expChars (mantExp 16 x).2) := by
      intro n sign
      simp [List.append_assoc]
    rw [hassoc, fracCount_fmt_aux _ _ _ _ ?hsign ?hds, List.length_drop, h17]
    case hsign =>
      intro c hc
      by_cases hneg : x < 0
      · rw [if_pos hneg] at hc
        simpa using hc
      · rw [if_neg hneg] at hc
        simp at hc
    case hds => exact natChars_not_special (mantExp 16 x).1

theorem fmt2316_len_eq (x : ℚ) (hx : x ≠ 0) (he : (mantExp 16 x).2.natAbs < 100) :
    (fmt2316 x).length = 23 := by
  apply padLeft_len_eq
  have h17 := natChars_mant17 x hx
  rw [fmtE, if_neg hx]
  simp only [List.length_append, List.length_cons, List.length_take, List.length_drop,
    h17, expChars_length_le _ he]
  by_cases hneg : x < 0
  · rw [if_pos hneg]
    simp only [List.length_singleton]
    omega
  · rw [if_neg hneg]
    simp only [List.length_nil]
    omega

theorem mantExp_one : mantExp 16 1 = (10 ^ 16, 0) := by
  have hexp : exp10 (1 : ℚ) = 0 := rfl
  rw [mantExp, abs_one, hexp]
  have hsc : (1 : ℚ) * (10 : ℚ) ^ (((16 : ℕ) : ℤ) - 0) = ((10 ^ 16 : ℕ) : ℚ) := by
    norm_num
  rw [hsc, roundHalfEven_natCast, Int.toNat_natCast, if_neg (by norm_num)]

theorem fmt2316_one : fmt2316 1 = sampleField.data := by
  rw [fmt2316, fmtE, if_neg (by norm_num : (1 : ℚ) ≠ 0),
    if_neg (by norm_num : ¬(1 : ℚ) < 0), mantExp_one]
  decide

/-- C7 counterexample: the field the converter emits for the value one (for
a box vector, say) is a 23-character field carrying sixteen digits after the
decimal point — seventeen significant mantissa digits, not six (which would
be five fractional digits). -/
theorem converter_fields_not_six_digits :
    fmt2316 1 ∈ Box.numFields ⟨1, 1, 1⟩ ∧
      fmt2316 1 = sampleField.data ∧
      fracCount sampleField.data = 16 ∧ ¬(16 : ℕ) = 5 :=
  ⟨List.mem_cons_self _ _, fmt2316_one, by decide, by decide⟩

/-- C7 (amended): every numeric field the converter writes — box-vector
components, cohesive energy, stress components, atom positions and forces —
is emitted as fixed-width scientific notation in a field of minimum width 23
(exactly 23 whenever the decimal exponent has at most two digits) with
sixteen digits after the decimal point, i.e. seventeen significant mantissa
digits, not six. -/
theorem converter_field_format (x e xx yy zz xy yz xz : ℚ) (b : Box) (a : Atom) :
    (23 ≤ (fmt2316 x).length ∧ fracCount (fmt2316 x) = 16) ∧
    (∀ s ∈ Box.numFields b, 23 ≤ s.length ∧ fracCount s = 16) ∧
    (∀ s ∈ Atom.numFields a, 23 ≤ s.length ∧ fracCount s = 16) ∧
    (23 ≤ (energyField e).length ∧ fracCount (energyField e) = 16) ∧
    (∀ s ∈ stressFields xx yy zz xy yz xz, 23 ≤ s.length ∧ fracCount s = 16) ∧
    (x ≠ 0 → (mantExp 16 x).2.natAbs < 100 → (fmt2316 x).length = 23) := by
  refine ⟨fmt2316_props x, ?_, ?_, fmt2316_props e, ?_, fmt2316_len_eq x⟩
  · intro s hs
    simp only [Box.numFields, List.mem_cons, List.not_mem_nil, or_false] at hs
    rcases hs with rfl | rfl | rfl
    all_goals exact fmt2316_props _
  · intro s hs
    simp only [Atom.numFields, List.mem_cons, List.not_mem_nil, or_false] at hs
    rcases hs with rfl | rfl | rfl | rfl | rfl | rfl
    all_goals exact fmt2316_props _
  · intro s hs
    simp only [stressFields, List.mem_cons, List.not_mem_nil, or_false] at hs
    rcases hs with rfl | rfl | rfl | rfl | rfl | rfl
    all_goals exact fmt2316_props _

theorem converter_field_format_witness :
    ((2 : ℚ) ≠ 0 ∧ (mantExp 16 (2 : ℚ)).2.natAbs < 100) ∧
      23 ≤ (fmt2316 (2 : ℚ)).length ∧ fracCount (fmt2316 (2 : ℚ)) = 16 ∧
      (fmt2316 (2 : ℚ)).length = 23 := by
  have hx : (2 : ℚ) ≠ 0 := by norm_num
  have hexp : exp10 (2 : ℚ) = 0 := rfl
  have he : (mantExp 16 (2 : ℚ)).2.natAbs < 100 := by
    rw [mantExp, abs_of_pos (by norm_num : (0 : ℚ) < 2), hexp]
    have hsc : (2 : ℚ) * (10 : ℚ) ^ (((16 : ℕ) : ℤ) - 0) = ((2 * 10 ^ 16 : ℕ) : ℚ) := by
      norm_num
    rw [hsc, roundHalfEven_natCast, Int.toNat_natCast, if_neg (by norm_num)]
    decide
  have h := converter_field_format 2 0 0 0 0 0 0 0 ⟨0, 0, 0⟩ ⟨0, 0, 0, 0, 0, 0, 0⟩
  exact ⟨⟨hx, he⟩, h.1.1, h.1.2, h.2.2.2.2.2 hx he⟩

theorem read_pot_table3_header_invariants_witness :
    (0 < ([5, 4] : List ℕ).length ∧ 2 ≤ ([5, 4] : List ℕ).getD 0 0) ∧
      firstIdx [5, 4] 0 < lastIdx [5, 4] 0 ∧
      lenAfter [5, 4] = 13 := by
  refine ⟨⟨by decide, by decide⟩, ?_, ?_⟩
  · exact (read_pot_table3_header_invariants [5, 4]).2.2.2.1 0 (by decide) (by decide)
  · have h := (read_pot_table3_header_invariants [5, 4]).2.2.2.2 (by decide)
    rw [h]; decide

end Potfit
